import Mathlib

/-!
# Verification of the `iso` tactical engine against its specification

Shallow embedding of the Python sources (`src/engine/*.py`, `src/app.py`,
`src/settings.py`) of the isometric tactical squad game, together with
proofs and refutations of the specification's claims.

Conventions used throughout:
* Python `int` is embedded as `ℤ`; Python `set` of coordinate pairs as
  `Finset (ℤ × ℤ)`; Python `list` as `List`; Python `dict` used as a map
  is embedded as an association list with first-match lookup (an update
  shadows older bindings, exactly like an imperative overwrite as far as
  lookups are concerned).
* Loops of the source are embedded as fuel-based recursions.  The fuel
  argument is always chosen so large that it provably (or, where noted,
  by an explicit counting argument) never runs out on any input, so the
  fuel-based function is extensionally the source's loop.
* Python floats appear only in the enemy-turn timer (`turns.py`); that
  timer is embedded over `ℚ`, with `0.8` rendered as `4/5` (the claims
  about the turn manager do not depend on the rounding of `0.8`).
-/

/-- A grid coordinate `(i, j)` — `Coord = Tuple[int, int]` in the source. -/
abbrev Coord : Type := ℤ × ℤ

/-! ## `settings.py` — the tuning constants used by the embedded code -/

def GRID_COLS : ℤ := 20
def GRID_ROWS : ℤ := 20
def BASE_AIM : ℤ := 65
def BASE_CRIT : ℤ := 0
def COVER_FULL_DEF : ℤ := 40
def FLANK_CRIT : ℤ := 40
def HIT_FLOOR : ℤ := 5
def HIT_CEIL : ℤ := 95
def SHOOT_AP_COST : ℤ := 1
def CLIP_SIZE : ℤ := 3
def COVER_HALF_DEF : ℤ := 20

/-! ## `engine/pathfinding.py` — grid helpers -/

/-- `manhattan(a, b)` from `engine/pathfinding.py`. -/
def manhattan (a b : Coord) : ℕ :=
  (a.1 - b.1).natAbs + (a.2 - b.2).natAbs

/-- `neighbors_4(i, j)`: the four cardinal neighbours, in the source's
yield order `(i+1,j), (i-1,j), (i,j+1), (i,j-1)`. -/
def neighbors_4 (i j : ℤ) : List Coord :=
  [(i + 1, j), (i - 1, j), (i, j + 1), (i, j - 1)]

/-! ## `engine/map.py` — `TileMap` -/

/-- The `TileMap` state: grid size plus the two occupancy sets. -/
structure TileMap where
  cols : ℤ
  rows : ℤ
  /-- full blockers: walls (block movement and LOS) -/
  blocked : Finset Coord
  /-- half-cover props (block neither movement nor LOS) -/
  crates : Finset Coord
deriving DecidableEq

/-- The demo obstacles placed by `TileMap.__init__`: a wall column at
`i = S.GRID_COLS // 2 = 10` for `j in range(6, 14)` plus a blob.  Note the
constructor uses the global `S.GRID_COLS`, not the `cols` argument. -/
def demo_blocked : Finset Coord :=
  {((10 : ℤ), (6 : ℤ)), (10, 7), (10, 8), (10, 9), (10, 10), (10, 11), (10, 12), (10, 13),
   (8, 5), (9, 5), (9, 6), (10, 6)}

/-- The demo crates placed by `TileMap.__init__`. -/
def demo_crates : Finset Coord := {((6 : ℤ), (8 : ℤ)), (11, 9)}

/-- `TileMap(cols, rows)` — the constructor, demo obstacles included. -/
def mkTileMap (cols rows : ℤ) : TileMap :=
  { cols := cols, rows := rows, blocked := demo_blocked, crates := demo_crates }

/-- `TileMap.in_bounds`. -/
def TileMap.in_bounds (t : TileMap) (c : Coord) : Bool :=
  decide (0 ≤ c.1 ∧ c.1 < t.cols ∧ 0 ≤ c.2 ∧ c.2 < t.rows)

/-- `TileMap.passable`: true iff not a wall (crates do not block movement). -/
def TileMap.passable (t : TileMap) (c : Coord) : Bool :=
  decide (c ∉ t.blocked)

/-- `TileMap.toggle_block`: out-of-bounds is a silent no-op; placing a wall
evicts any crate on the cell. -/
def TileMap.toggle_block (t : TileMap) (c : Coord) : TileMap :=
  if ¬ t.in_bounds c then t
  else if c ∈ t.blocked then { t with blocked := t.blocked.erase c }
  else { t with crates := t.crates.erase c, blocked := insert c t.blocked }

/-- `TileMap.toggle_crate`: out-of-bounds is a silent no-op; refused on a
wall cell. -/
def TileMap.toggle_crate (t : TileMap) (c : Coord) : TileMap :=
  if ¬ t.in_bounds c then t
  else if c ∈ t.blocked then t
  else if c ∈ t.crates then { t with crates := t.crates.erase c }
  else { t with crates := insert c t.crates }

/-! ## `engine/los.py` — Bresenham rasterization and line of sight -/

/-- The body of `bresenham_line`'s `while True` loop.  Parameters
`x1 y1 sx sy dx dy` are fixed by the header; `x y err` is the mutable
state.  One fuel unit per iteration; each iteration moves `x` or `y` one
step toward the target, so `(dx - dy) + 2` fuel never runs out. -/
def bresenham_loop (x1 y1 sx sy dx dy : ℤ) : ℕ → ℤ → ℤ → ℤ → List Coord
  | 0, _, _, _ => []
  | fuel + 1, x, y, err =>
    (x, y) ::
      (if x = x1 ∧ y = y1 then []
       else
         let e2 := 2 * err
         let x' := if e2 ≥ dy then x + sx else x
         let err' := if e2 ≥ dy then err + dy else err
         let y' := if e2 ≤ dx then y + sy else y
         let err'' := if e2 ≤ dx then err' + dx else err'
         bresenham_loop x1 y1 sx sy dx dy fuel x' y' err'')

/-- `bresenham_line(a, b)`: grid cells from `a` to `b` inclusive. -/
def bresenham_line (a b : Coord) : List Coord :=
  let dx : ℤ := |b.1 - a.1|
  let dy : ℤ := -|b.2 - a.2|
  let sx : ℤ := if a.1 < b.1 then 1 else -1
  let sy : ℤ := if a.2 < b.2 then 1 else -1
  bresenham_loop b.1 b.2 sx sy dx dy ((dx - dy).toNat + 2) a.1 a.2 (dx + dy)

/-- The `for c in it` loop of `has_los`: stop with `True` on reaching `b`,
with `False` on the first blocked cell before it. -/
def los_scan (b : Coord) (blocked : Finset Coord) : List Coord → Bool
  | [] => true
  | c :: rest =>
    if c = b then true
    else if c ∈ blocked then false
    else los_scan b blocked rest

/-- `has_los(a, b, blocked)`: no blocked cell strictly between `a` and `b`
on the rasterized line (the start cell is skipped by `next(it, None)`). -/
def has_los (a b : Coord) (blocked : Finset Coord) : Bool :=
  los_scan b blocked (bresenham_line a b).tail

/-! ## `app.py` — cover model and shot chances -/

/-- The four sides of a tile, the keys of the dict returned by
`cover_sides_from_obstacles`. -/
inductive Side
  | up
  | right
  | down
  | left
deriving DecidableEq

/-- `cover_sides_from_obstacles(tile, tmap)`: full cover per side, from the
adjacent wall tiles. -/
def cover_sides_from_obstacles (tile : Coord) (tmap : TileMap) : Side → Bool
  | .up => decide ((tile.1, tile.2 - 1) ∈ tmap.blocked)
  | .right => decide ((tile.1 + 1, tile.2) ∈ tmap.blocked)
  | .down => decide ((tile.1, tile.2 + 1) ∈ tmap.blocked)
  | .left => decide ((tile.1 - 1, tile.2) ∈ tmap.blocked)

/-- `facing_side(from_tile, to_tile)`: which side of `to_tile` faces
`from_tile` (dominant axis, ties to the horizontal axis). -/
def facing_side (from_tile to_tile : Coord) : Side :=
  let dx := from_tile.1 - to_tile.1
  let dy := from_tile.2 - to_tile.2
  if |dx| ≥ |dy| then (if dx > 0 then .right else .left)
  else (if dy > 0 then .down else .up)

/-- `cover_full_on_facing(target, shooter, tmap)` from `app.py`, verbatim:
the checked side is `ti + (1 if dx < 0 else -1)` on the horizontal axis
(resp. `tj + (1 if dy < 0 else -1)` vertically). -/
def cover_full_on_facing (target shooter : Coord) (tmap : TileMap) : Bool :=
  let dx := shooter.1 - target.1
  let dy := shooter.2 - target.2
  let side : Coord :=
    if |dx| ≥ |dy| then (target.1 + (if dx < 0 then 1 else -1), target.2)
    else (target.1, target.2 + (if dy < 0 then 1 else -1))
  decide (side ∈ tmap.blocked)

/-- `calc_shot_chances(shooter, target, tmap, aim_delta)` from `app.py`.
Returns `none` when there is no LOS, otherwise the pair `(hit, crit)` —
the source's `return hit, crit` is a 2-tuple. -/
def calc_shot_chances (shooter target : Coord) (tmap : TileMap)
    (aim_delta : ℤ) : Option (ℤ × ℤ) :=
  if ¬ has_los shooter target tmap.blocked then none
  else
    let aim := BASE_AIM + aim_delta
    let flanked := ¬ cover_full_on_facing target shooter tmap
    let defense : ℤ := if ¬ flanked then COVER_FULL_DEF else 0
    let hit := max HIT_FLOOR (min HIT_CEIL (aim - defense))
    let crit := max 0 (min 100 (BASE_CRIT + (if flanked then FLANK_CRIT else 0)))
    some (hit, crit)

/-! ## `engine/unit.py` and `engine/enemy.py` — the entity model

The `Unit` class is embedded as `GameUnit` (`Unit` is taken by the Lean
prelude).  The continuous pixel position and the movement tween
(`update(dt)`, float arithmetic) are not needed by any claim; the fields
relevant to combat resolution are kept, with `is_moving` determined — as
in the source — by the waypoint queue being non-empty. -/

structure GameUnit where
  grid : Coord
  /-- the pending waypoint queue `_waypoints` (only emptiness matters here) -/
  waypoints : List (ℚ × ℚ)
  ap : ℤ
  ap_max : ℤ
  ammo : ℤ
  clip_max : ℤ
  overwatch : Bool
deriving DecidableEq

/-- `Unit.is_moving`. -/
def GameUnit.is_moving (u : GameUnit) : Bool := ¬ u.waypoints.isEmpty

/-- `Unit.has_ammo`. -/
def GameUnit.has_ammo (u : GameUnit) : Bool := decide (0 < u.ammo)

/-- `Unit.spend_ammo`: decrement by one if any ammo is left; returns the
success flag alongside the new unit state. -/
def GameUnit.spend_ammo (u : GameUnit) : GameUnit × Bool :=
  if u.ammo ≤ 0 then (u, false)
  else ({ u with ammo := u.ammo - 1 }, true)

/-- `Enemy` from `engine/enemy.py`: grid cell and hit points. -/
structure Enemy where
  grid : Coord
  hp : ℤ
deriving DecidableEq

/-- `get_enemy_at(enemies, tile)` from `app.py`: first enemy on the tile. -/
def get_enemy_at (enemies : List Enemy) (tile : Coord) : Option Enemy :=
  enemies.find? (fun e => decide (e.grid = tile))

/-! ## `app.py` — `resolve_shot`

`resolve_shot` follows the source's early-return ladder.  After the guard
ladder it computes `chances = calc_shot_chances(...)`, and on a `some`
result the source executes `hit_ch, crit_ch, _ctag = chances` — a
three-element unpack of the two-element tuple `(hit, crit)` returned by
`calc_shot_chances`, which raises `ValueError` unconditionally.  The code
after that line (rolling, damage, `spend_ammo`, zeroing AP) is therefore
unreachable, and the embedding returns the raised error there.  The `rng`
parameter mirrors the source's `rng` argument; no draw is ever reached. -/

def resolve_shot (rng : List ℤ) (shooter : GameUnit) (target_tile : Coord)
    (tmap : TileMap) (enemies : List Enemy) (log : List String)
    (aim_delta : ℤ) (tag : String) :
    Except String (GameUnit × List Enemy × List String) :=
  if shooter.is_moving then Except.ok (shooter, enemies, log)
  else
    match get_enemy_at enemies target_tile with
    | none => Except.ok (shooter, enemies, log)
    | some _target =>
      if tag = "Shot" ∧ shooter.ap < SHOOT_AP_COST then
        Except.ok (shooter, enemies, log)
      else if tag = "Shot" ∧ ¬ shooter.has_ammo then
        Except.ok (shooter, enemies, log ++ ["Click: OUT OF AMMO (press R to reload)"])
      else if tag ≠ "Shot" ∧ ¬ shooter.has_ammo then
        Except.ok (shooter, enemies, log)
      else
        match calc_shot_chances shooter.grid target_tile tmap aim_delta with
        | none => Except.ok (shooter, enemies, log)
        | some _pair =>
          -- hit_ch, crit_ch, _ctag = chances : 3-element unpack of a 2-tuple
          Except.error "ValueError: not enough values to unpack (expected 3, got 2)"

/-! ## `engine/turns.py` — the turn state machine -/

inductive Phase
  | PLAYER
  | ENEMY
deriving DecidableEq

/-- `TurnManager`: turn counter, phase, and the `_enemy_timer` float
(embedded over `ℚ`). -/
structure TurnManager where
  turn : ℤ
  phase : Phase
  enemy_timer : ℚ
deriving DecidableEq

/-- `TurnManager.__init__`. -/
def TurnManager.start : TurnManager :=
  { turn := 1, phase := .PLAYER, enemy_timer := 0 }

/-- `TurnManager.end_player_turn`: PLAYER → ENEMY, arming the 0.8-second
enemy-turn timer. -/
def TurnManager.end_player_turn (tm : TurnManager) : TurnManager :=
  if tm.phase = .PLAYER then { tm with phase := .ENEMY, enemy_timer := 4 / 5 }
  else tm

/-- `TurnManager.update(dt)`: ticks the enemy timer down and, purely on the
timer reaching zero, transitions ENEMY → PLAYER and increments `turn`;
returns whether that transition just happened. -/
def TurnManager.update (tm : TurnManager) (dt : ℚ) : TurnManager × Bool :=
  if tm.phase = .ENEMY then
    let t := tm.enemy_timer - dt
    if t ≤ 0 then
      ({ tm with phase := .PLAYER, turn := tm.turn + 1, enemy_timer := t }, true)
    else ({ tm with enemy_timer := t }, false)
  else (tm, false)

/-! # Claims about the map invariant (C7) -/

/-- C7: the `blocked` and `crates` sets of a `TileMap` are disjoint after
construction, and both `toggle_block` and `toggle_crate` preserve
disjointness: placing a wall evicts any crate on the cell, and placing a
crate is refused on a wall cell. -/
theorem C7_blocked_crates_disjoint :
    (∀ cols rows : ℤ, Disjoint (mkTileMap cols rows).blocked (mkTileMap cols rows).crates) ∧
    (∀ (t : TileMap) (c : Coord), Disjoint t.blocked t.crates →
      Disjoint (t.toggle_block c).blocked (t.toggle_block c).crates ∧
      Disjoint (t.toggle_crate c).blocked (t.toggle_crate c).crates) := by
  constructor
  · intro cols rows
    show Disjoint demo_blocked demo_crates
    decide
  · intro t c h
    constructor
    · unfold TileMap.toggle_block
      split
      · exact h
      · split
        · exact Finset.disjoint_of_subset_left (Finset.erase_subset _ _) h
        · refine Finset.disjoint_left.2 ?_
          intro a ha hc
          rcases Finset.mem_insert.1 ha with rfl | ha
          · exact (Finset.mem_erase.1 hc).1 rfl
          · exact Finset.disjoint_left.1 h ha (Finset.mem_of_mem_erase hc)
    · unfold TileMap.toggle_crate
      split
      · exact h
      · split
        · exact h
        · split
          · exact Finset.disjoint_of_subset_right (Finset.erase_subset _ _) h
          · rename_i hb _
            refine Finset.disjoint_left.2 ?_
            intro a ha hc
            rcases Finset.mem_insert.1 hc with rfl | hc
            · exact hb ha
            · exact Finset.disjoint_left.1 h ha hc

/-- C7 witness: the preservation part applied at a concrete map and cell. -/
theorem C7_blocked_crates_disjoint_witness :
    Disjoint ((mkTileMap 20 20).toggle_block (3, 3)).blocked
      ((mkTileMap 20 20).toggle_block (3, 3)).crates ∧
    Disjoint ((mkTileMap 20 20).toggle_crate (3, 3)).blocked
      ((mkTileMap 20 20).toggle_crate (3, 3)).crates :=
  C7_blocked_crates_disjoint.2 (mkTileMap 20 20) (3, 3)
    (C7_blocked_crates_disjoint.1 20 20)

/-! # Claims about cover and shot chances (C2, C4) -/

/-- C2 evidence: shooter `(0,0)`, target `(2,2)` (the shooter is up-left of
the target; dominant axis horizontal, so the facing side is `left`,
i.e. tile `(1,2)`).  With a wall on that facing tile the preview logic
(`facing_side` + `cover_sides_from_obstacles`) reports full cover, yet
`calc_shot_chances` — whose `cover_full_on_facing` checks the mirrored
tile `(3,2)` — treats the target as flanked: hit `65` (no defense
subtracted) and flank crit `40`.  A crate on the facing tile likewise
yields no `COVER_HALF_DEF`: crates are never consulted. -/
theorem C2_facing_cover_ignored :
    facing_side (0, 0) (2, 2) = Side.left ∧
    cover_sides_from_obstacles (2, 2) ⟨20, 20, {(1, 2)}, ∅⟩ Side.left = true ∧
    calc_shot_chances (0, 0) (2, 2) ⟨20, 20, {(1, 2)}, ∅⟩ 0 = some (65, 40) ∧
    calc_shot_chances (0, 0) (2, 2) ⟨20, 20, ∅, {(1, 2)}⟩ 0 = some (65, 40) := by
  decide

/-- C4 evidence: with LOS, `calc_shot_chances` produces the two-component
value `(hit, crit)` — there is no tag component, although `resolve_shot`
unpacks three — and without LOS it produces the `none` sentinel. -/
theorem C4_pair_not_triple :
    calc_shot_chances (0, 0) (1, 0) ⟨20, 20, ∅, ∅⟩ 0 = some (65, 40) ∧
    calc_shot_chances (0, 0) (2, 0) ⟨20, 20, {(1, 0)}, ∅⟩ 0 = none := by
  decide

/-! # Claims about shot resolution (C3, C10) -/

/-- C3 evidence: a fully legitimate manual shot — shooter not moving, AP 2,
ammo 3, an enemy adjacent with LOS — does not decrement ammo and zero AP;
it raises `ValueError` at the `hit_ch, crit_ch, _ctag = chances` unpack,
because `calc_shot_chances` returns a 2-tuple. -/
theorem C3_shot_raises_value_error :
    resolve_shot [50, 50, 3]
      { grid := (0, 0), waypoints := [], ap := 2, ap_max := 2,
        ammo := 3, clip_max := 3, overwatch := false }
      (1, 0) ⟨20, 20, ∅, ∅⟩ [{ grid := (1, 0), hp := 3 }] [] 0 "Shot"
      = Except.error "ValueError: not enough values to unpack (expected 3, got 2)" := by
  rfl

/-- C10: when no enemy occupies the target tile, `resolve_shot` returns the
shooter, the enemy roster and the log completely unchanged (for any rng,
map, aim delta and tag, and whether or not the shooter is moving). -/
theorem C10_resolve_shot_no_target_noop (rng : List ℤ) (shooter : GameUnit)
    (tile : Coord) (tmap : TileMap) (enemies : List Enemy) (log : List String)
    (aim_delta : ℤ) (tag : String)
    (h : get_enemy_at enemies tile = none) :
    resolve_shot rng shooter tile tmap enemies log aim_delta tag
      = Except.ok (shooter, enemies, log) := by
  unfold resolve_shot
  split
  · rfl
  · rw [h]

/-- C10 witness: an empty roster at a concrete input. -/
theorem C10_resolve_shot_no_target_noop_witness :
    resolve_shot []
      { grid := (0, 0), waypoints := [], ap := 2, ap_max := 2,
        ammo := 3, clip_max := 3, overwatch := false }
      (5, 5) (mkTileMap 20 20) [] [] 0 "Shot"
      = Except.ok
        ({ grid := (0, 0), waypoints := [], ap := 2, ap_max := 2,
           ammo := 3, clip_max := 3, overwatch := false }, [], []) :=
  C10_resolve_shot_no_target_noop [] _ (5, 5) (mkTileMap 20 20) [] [] 0 "Shot" rfl

/-! # Claims about the turn manager (C5) -/

/-- C5 evidence: the `TurnManager` shipped in `engine/turns.py` performs a
purely timer-based automatic ENEMY → PLAYER transition: after
`end_player_turn`, a single `update` whose `dt` exhausts the 0.8-second
timer flips the phase back to PLAYER and increments the turn counter,
with no `complete_enemy_turn` involved (the class defines no such
method, although `app.py` calls one). -/
theorem C5_timer_based_transition :
    (TurnManager.start.end_player_turn).phase = Phase.ENEMY ∧
    (TurnManager.start.end_player_turn.update 1).1.phase = Phase.PLAYER ∧
    (TurnManager.start.end_player_turn.update 1).1.turn = 2 ∧
    (TurnManager.start.end_player_turn.update 1).2 = true := by
  refine ⟨rfl, ?_, ?_, ?_⟩ <;>
    norm_num [TurnManager.start, TurnManager.end_player_turn, TurnManager.update]

/-! # Claims about line of sight (C6)

The Bresenham rasterization of `engine/los.py` is direction-dependent:
the cells of the line from `a` to `b` are in general not the cells of the
line from `b` to `a`, so `has_los` is not symmetric.  It is symmetric on
the families where the rasterized cells are forced — axis-aligned lines
and exact 45-degree diagonals — which we characterize below. -/

/-- C6 counterexample: the line `(0,0) → (2,1)` rasterizes through `(1,1)`,
while `(2,1) → (0,0)` rasterizes through `(1,0)`; blocking `(1,1)` makes
LOS hold in one direction only. -/
theorem C6_los_not_symmetric :
    has_los (0, 0) (2, 1) {((1 : ℤ), (1 : ℤ))} = false ∧
    has_los (2, 1) (0, 0) {((1 : ℤ), (1 : ℤ))} = true := by
  decide


/-- The scan of `has_los` over a cell list `mid ++ [b]` that reaches `b`
only at its very end returns whether no cell of `mid` is blocked. -/
theorem los_scan_append (b : Coord) (S : Finset Coord) (mid : List Coord)
    (h : b ∉ mid) :
    los_scan b S (mid ++ [b]) = decide (∀ c ∈ mid, c ∉ S) := by
  induction mid with
  | nil => simp [los_scan]
  | cons c t ih =>
    have hcb : ¬(c = b) := fun hcb => h (hcb ▸ List.mem_cons_self c t)
    have hbt : b ∉ t := fun hbt => h (List.mem_cons_of_mem _ hbt)
    by_cases hcS : c ∈ S
    · simp [los_scan, hcb, hcS, List.forall_mem_cons]
    · simp [los_scan, hcb, hcS, ih hbt, List.forall_mem_cons]

/-- Horizontal runs of the Bresenham loop: with `dy = 0 < dx` the error
term never moves and the walk steps in `x` only. -/
theorem bresenham_loop_horiz (x1 y sx sy dx : ℤ)
    (hs : sx = 1 ∨ sx = -1) (hdx : 0 < dx) :
    ∀ (n fuel : ℕ) (x : ℤ), x1 = x + sx * n → n < fuel →
      bresenham_loop x1 y sx sy dx 0 fuel x y dx
        = List.map (fun t : ℕ => ((x + sx * t, y) : Coord)) (List.range (n + 1)) := by
  intro n
  induction n with
  | zero =>
    intro fuel x hx hfuel
    obtain ⟨fuel', rfl⟩ : ∃ k, fuel = k + 1 := ⟨fuel - 1, by omega⟩
    simp only [Nat.cast_zero, mul_zero, add_zero] at hx
    subst hx
    simp [bresenham_loop, List.range_succ]
  | succ n ih =>
    intro fuel x hx hfuel
    obtain ⟨fuel', rfl⟩ : ∃ k, fuel = k + 1 := ⟨fuel - 1, by omega⟩
    have hxx : ¬(x = x1) := by
      rintro rfl
      rcases hs with rfl | rfl <;> push_cast at hx <;> omega
    have hge : (2 * dx ≥ 0) := by omega
    have hnle : ¬(2 * dx ≤ dx) := by omega
    have hemain : bresenham_loop x1 y sx sy dx 0 (fuel' + 1) x y dx
        = (x, y) :: bresenham_loop x1 y sx sy dx 0 fuel' (x + sx) y dx := by
      simp [bresenham_loop, hxx, hge, hnle]
    rw [hemain, ih fuel' (x + sx) (by push_cast; push_cast at hx; linarith) (by omega)]
    conv_rhs => rw [List.range_succ_eq_map, List.map_cons]
    refine congrArg₂ List.cons (by simp) ?_
    rw [List.map_map]
    refine List.map_congr_left ?_
    intro t _
    simp only [Function.comp_apply, Prod.mk.injEq]
    push_cast
    constructor <;> first | ring | trivial

/-- Vertical runs of the Bresenham loop: with `dx = 0` and `dy < 0` the
error term never moves and the walk steps in `y` only. -/
theorem bresenham_loop_vert (y1 x sx sy dy : ℤ)
    (hs : sy = 1 ∨ sy = -1) (hdy : dy < 0) :
    ∀ (n fuel : ℕ) (y : ℤ), y1 = y + sy * n → n < fuel →
      bresenham_loop x y1 sx sy 0 dy fuel x y dy
        = List.map (fun t : ℕ => ((x, y + sy * t) : Coord)) (List.range (n + 1)) := by
  intro n
  induction n with
  | zero =>
    intro fuel y hy hfuel
    obtain ⟨fuel', rfl⟩ : ∃ k, fuel = k + 1 := ⟨fuel - 1, by omega⟩
    simp only [Nat.cast_zero, mul_zero, add_zero] at hy
    subst hy
    simp [bresenham_loop, List.range_succ]
  | succ n ih =>
    intro fuel y hy hfuel
    obtain ⟨fuel', rfl⟩ : ∃ k, fuel = k + 1 := ⟨fuel - 1, by omega⟩
    have hyy : ¬(y = y1) := by
      rintro rfl
      rcases hs with rfl | rfl <;> push_cast at hy <;> omega
    have hnge : ¬(2 * dy ≥ dy) := by omega
    have hle : 2 * dy ≤ 0 := by omega
    have hemain : bresenham_loop x y1 sx sy 0 dy (fuel' + 1) x y dy
        = (x, y) :: bresenham_loop x y1 sx sy 0 dy fuel' x (y + sy) dy := by
      simp [bresenham_loop, hyy, hnge, hle]
    rw [hemain, ih fuel' (y + sy) (by push_cast; push_cast at hy; linarith) (by omega)]
    conv_rhs => rw [List.range_succ_eq_map, List.map_cons]
    refine congrArg₂ List.cons (by simp) ?_
    rw [List.map_map]
    refine List.map_congr_left ?_
    intro t _
    simp only [Function.comp_apply, Prod.mk.injEq]
    push_cast
    constructor <;> first | ring | trivial

/-- Diagonal runs of the Bresenham loop: with `dx > 0`, `dy = -dx` and a
zero error term, every iteration steps one cell in both axes. -/
theorem bresenham_loop_diag (x1 y1 sx sy dx : ℤ)
    (hsx : sx = 1 ∨ sx = -1) (hdx : 0 < dx) :
    ∀ (n fuel : ℕ) (x y : ℤ), x1 = x + sx * n → y1 = y + sy * n → n < fuel →
      bresenham_loop x1 y1 sx sy dx (-dx) fuel x y 0
        = List.map (fun t : ℕ => ((x + sx * t, y + sy * t) : Coord)) (List.range (n + 1)) := by
  intro n
  induction n with
  | zero =>
    intro fuel x y hx hy hfuel
    obtain ⟨fuel', rfl⟩ : ∃ k, fuel = k + 1 := ⟨fuel - 1, by omega⟩
    simp only [Nat.cast_zero, mul_zero, add_zero] at hx hy
    subst hx
    subst hy
    simp [bresenham_loop, List.range_succ]
  | succ n ih =>
    intro fuel x y hx hy hfuel
    obtain ⟨fuel', rfl⟩ : ∃ k, fuel = k + 1 := ⟨fuel - 1, by omega⟩
    have hxx : ¬(x = x1) := by
      rintro rfl
      rcases hsx with rfl | rfl <;> push_cast at hx <;> omega
    have hge : ((2 : ℤ) * 0 ≥ -dx) := by omega
    have hle : ((2 : ℤ) * 0 ≤ dx) := by omega
    have hdx' : (0 : ℤ) ≤ dx := le_of_lt hdx
    have hemain : bresenham_loop x1 y1 sx sy dx (-dx) (fuel' + 1) x y 0
        = (x, y) :: bresenham_loop x1 y1 sx sy dx (-dx) fuel' (x + sx) (y + sy) 0 := by
      simp [bresenham_loop, hxx, hge, hle, hdx', neg_add_cancel]
    rw [hemain,
      ih fuel' (x + sx) (y + sy) (by push_cast; push_cast at hx; linarith)
        (by push_cast; push_cast at hy; linarith) (by omega)]
    conv_rhs => rw [List.range_succ_eq_map, List.map_cons]
    refine congrArg₂ List.cons (by simp) ?_
    rw [List.map_map]
    refine List.map_congr_left ?_
    intro t _
    simp only [Function.comp_apply, Prod.mk.injEq]
    push_cast
    constructor <;> first | ring | trivial

/-- `has_los` along a rasterized run `f 0, …, f n` that reaches `b` only at
index `n`: LOS holds iff no strictly interior cell of the run is blocked. -/
theorem has_los_of_run (a b : Coord) (S : Finset Coord) (f : ℕ → Coord) (n : ℕ)
    (hn : 1 ≤ n)
    (hrun : bresenham_line a b = List.map f (List.range (n + 1)))
    (hfn : f n = b)
    (hinj : ∀ t, t < n → f t ≠ f n) :
    has_los a b S = decide (∀ t : ℕ, t < n → 0 < t → f t ∉ S) := by
  unfold has_los
  rw [hrun, List.range_succ_eq_map, List.map_cons, List.tail_cons, List.map_map]
  obtain ⟨m, rfl⟩ : ∃ m, n = m + 1 := ⟨n - 1, by omega⟩
  rw [List.range_succ, List.map_append, List.map_singleton]
  have hb : (List.map (f ∘ Nat.succ) (List.range m)).all (fun c => decide (c ≠ b)) = true := by
    simp only [List.all_eq_true, List.mem_map, List.mem_range]
    rintro c ⟨t, ht, rfl⟩
    simpa using fun hc => hinj (t + 1) (by omega) (by rw [hfn]; exact hc)
  have hbmem : b ∉ List.map (f ∘ Nat.succ) (List.range m) := by
    intro hmem
    simp only [List.all_eq_true, decide_eq_true_eq] at hb
    exact hb b hmem rfl
  rw [show (f ∘ Nat.succ) (m) = b from by simpa using hfn]
  rw [los_scan_append b S _ hbmem]
  refine decide_eq_decide.mpr ?_
  constructor
  · intro H t htn ht0
    obtain ⟨u, rfl⟩ : ∃ u, t = u + 1 := ⟨t - 1, by omega⟩
    exact H (f (u + 1)) (List.mem_map.2 ⟨u, List.mem_range.2 (by omega), rfl⟩)
  · intro H c hc
    obtain ⟨t, ht, rfl⟩ := List.mem_map.1 hc
    exact H (t + 1) (by simp only [List.mem_range] at ht; omega) (by omega)

/-- Bijection `t ↦ n - t` on the strict interior of `[0, n]`, used to match
the interiors of the two rasterization directions. -/
theorem forall_interior_flip (n : ℕ) (P Q : ℕ → Prop)
    (h : ∀ t, 0 < t → t < n → (P t ↔ Q (n - t))) :
    (∀ t, t < n → 0 < t → P t) ↔ (∀ t, t < n → 0 < t → Q t) := by
  constructor
  · intro H t htn ht0
    have h2 := h (n - t) (by omega) (by omega)
    rw [show n - (n - t) = t from by omega] at h2
    exact h2.1 (H (n - t) (by omega) (by omega))
  · intro H t htn ht0
    exact (h t ht0 htn).2 (H (n - t) (by omega) (by omega))

/-- The horizontal rasterization `(x0, y) → (x1, y)` is the straight row of
cells from `x0` to `x1`. -/
theorem bresenham_line_horiz (x0 x1 y : ℤ) (hne : x0 ≠ x1) :
    bresenham_line (x0, y) (x1, y)
      = List.map (fun t : ℕ =>
          ((x0 + (if x0 < x1 then 1 else -1) * t, y) : Coord))
          (List.range ((x1 - x0).natAbs + 1)) := by
  have hs : (if x0 < x1 then (1 : ℤ) else -1) = 1 ∨ (if x0 < x1 then (1 : ℤ) else -1) = -1 := by
    split <;> simp
  have hx1 : x1 = x0 + (if x0 < x1 then (1 : ℤ) else -1) * ((x1 - x0).natAbs : ℤ) := by
    split <;> omega
  have habs : |x1 - x0| = (((x1 - x0).natAbs : ℕ) : ℤ) := Int.abs_eq_natAbs _
  have habs0 : |y - y| = (0 : ℤ) := by simp
  show bresenham_loop x1 y (if x0 < x1 then 1 else -1) (if y < y then 1 else -1)
      (|x1 - x0|) (-|y - y|) (((|x1 - x0|) - -|y - y|).toNat + 2) x0 y ((|x1 - x0|) + -|y - y|)
      = _
  rw [habs, habs0]
  simp only [neg_zero, add_zero, sub_zero, Int.toNat_natCast]
  exact bresenham_loop_horiz x1 y _ _ _ hs (by omega) ((x1 - x0).natAbs)
    ((x1 - x0).natAbs + 2) x0 hx1 (by omega)

/-- The vertical rasterization `(x, y0) → (x, y1)` is the straight column
of cells from `y0` to `y1`. -/
theorem bresenham_line_vert (x y0 y1 : ℤ) (hne : y0 ≠ y1) :
    bresenham_line (x, y0) (x, y1)
      = List.map (fun t : ℕ =>
          ((x, y0 + (if y0 < y1 then 1 else -1) * t) : Coord))
          (List.range ((y1 - y0).natAbs + 1)) := by
  have hs : (if y0 < y1 then (1 : ℤ) else -1) = 1 ∨ (if y0 < y1 then (1 : ℤ) else -1) = -1 := by
    split <;> simp
  have hy1 : y1 = y0 + (if y0 < y1 then (1 : ℤ) else -1) * ((y1 - y0).natAbs : ℤ) := by
    split <;> omega
  have habs : |y1 - y0| = (((y1 - y0).natAbs : ℕ) : ℤ) := Int.abs_eq_natAbs _
  have habs0 : |x - x| = (0 : ℤ) := by simp
  show bresenham_loop x y1 (if x < x then 1 else -1) (if y0 < y1 then 1 else -1)
      (|x - x|) (-|y1 - y0|) (((|x - x|) - -|y1 - y0|).toNat + 2) x y0 ((|x - x|) + -|y1 - y0|)
      = _
  rw [habs, habs0]
  simp only [zero_sub, zero_add, neg_neg, Int.toNat_natCast]
  exact bresenham_loop_vert y1 x _ _ _ hs (by omega) ((y1 - y0).natAbs)
    ((y1 - y0).natAbs + 2) y0 hy1 (by omega)

/-- The 45-degree rasterization is the straight diagonal of cells. -/
theorem bresenham_line_diag (x0 y0 x1 y1 : ℤ) (hne : x0 ≠ x1)
    (hd : (x1 - x0).natAbs = (y1 - y0).natAbs) :
    bresenham_line (x0, y0) (x1, y1)
      = List.map (fun t : ℕ =>
          ((x0 + (if x0 < x1 then 1 else -1) * t,
            y0 + (if y0 < y1 then 1 else -1) * t) : Coord))
          (List.range ((x1 - x0).natAbs + 1)) := by
  have hsx : (if x0 < x1 then (1 : ℤ) else -1) = 1 ∨ (if x0 < x1 then (1 : ℤ) else -1) = -1 := by
    split <;> simp
  have hx1 : x1 = x0 + (if x0 < x1 then (1 : ℤ) else -1) * ((x1 - x0).natAbs : ℤ) := by
    split <;> omega
  have hy1 : y1 = y0 + (if y0 < y1 then (1 : ℤ) else -1) * ((x1 - x0).natAbs : ℤ) := by
    rw [hd]; split <;> omega
  have habsx : |x1 - x0| = (((x1 - x0).natAbs : ℕ) : ℤ) := Int.abs_eq_natAbs _
  have habsy : |y1 - y0| = (((x1 - x0).natAbs : ℕ) : ℤ) := by
    rw [Int.abs_eq_natAbs, hd]
  show bresenham_loop x1 y1 (if x0 < x1 then 1 else -1) (if y0 < y1 then 1 else -1)
      (|x1 - x0|) (-|y1 - y0|) (((|x1 - x0|) - -|y1 - y0|).toNat + 2) x0 y0 ((|x1 - x0|) + -|y1 - y0|)
      = _
  rw [habsx, habsy, add_neg_cancel]
  have hfuel : ((((x1 - x0).natAbs : ℕ) : ℤ) - -(((x1 - x0).natAbs : ℕ) : ℤ)).toNat + 2
      = 2 * (x1 - x0).natAbs + 2 := by omega
  rw [hfuel]
  exact bresenham_loop_diag x1 y1 _ _ _ hsx (by omega) ((x1 - x0).natAbs)
    (2 * (x1 - x0).natAbs + 2) x0 y0 hx1 hy1 (by omega)

/-- LOS along a horizontal line, reduced to its strict interior cells. -/
theorem has_los_horiz_interior (x0 x1 y : ℤ) (S : Finset Coord) (hne : x0 ≠ x1) :
    has_los (x0, y) (x1, y) S
      = decide (∀ t : ℕ, t < (x1 - x0).natAbs → 0 < t →
          ((x0 + (if x0 < x1 then 1 else -1) * t, y) : Coord) ∉ S) := by
  refine has_los_of_run _ _ S _ ((x1 - x0).natAbs) (by omega)
    (bresenham_line_horiz x0 x1 y hne) ?_ ?_
  · simp only [Prod.mk.injEq]
    exact ⟨by split <;> omega, trivial⟩
  · intro t ht heq
    simp only [Prod.mk.injEq] at heq
    obtain ⟨h1, -⟩ := heq
    split at h1 <;> omega

/-- LOS along a vertical line, reduced to its strict interior cells. -/
theorem has_los_vert_interior (x y0 y1 : ℤ) (S : Finset Coord) (hne : y0 ≠ y1) :
    has_los (x, y0) (x, y1) S
      = decide (∀ t : ℕ, t < (y1 - y0).natAbs → 0 < t →
          ((x, y0 + (if y0 < y1 then 1 else -1) * t) : Coord) ∉ S) := by
  refine has_los_of_run _ _ S _ ((y1 - y0).natAbs) (by omega)
    (bresenham_line_vert x y0 y1 hne) ?_ ?_
  · simp only [Prod.mk.injEq]
    exact ⟨trivial, by split <;> omega⟩
  · intro t ht heq
    simp only [Prod.mk.injEq] at heq
    obtain ⟨-, h2⟩ := heq
    split at h2 <;> omega

/-- LOS along a 45-degree diagonal, reduced to its strict interior cells. -/
theorem has_los_diag_interior (x0 y0 x1 y1 : ℤ) (S : Finset Coord)
    (hne : x0 ≠ x1) (hd : (x1 - x0).natAbs = (y1 - y0).natAbs) :
    has_los (x0, y0) (x1, y1) S
      = decide (∀ t : ℕ, t < (x1 - x0).natAbs → 0 < t →
          ((x0 + (if x0 < x1 then 1 else -1) * t,
            y0 + (if y0 < y1 then 1 else -1) * t) : Coord) ∉ S) := by
  refine has_los_of_run _ _ S _ ((x1 - x0).natAbs) (by omega)
    (bresenham_line_diag x0 y0 x1 y1 hne hd) ?_ ?_
  · simp only [Prod.mk.injEq]
    constructor
    · split <;> omega
    · rw [hd]; split <;> omega
  · intro t ht heq
    simp only [Prod.mk.injEq] at heq
    obtain ⟨h1, -⟩ := heq
    split at h1 <;> omega

/-- C6 amended: `has_los` is symmetric whenever the two endpoints are
axis-aligned or lie on an exact 45-degree diagonal (where the Bresenham
cells are direction-independent).  For general oblique lines the
rasterization — hence LOS — depends on the direction, as the
counterexample shows. -/
theorem C6_amended_los_symmetric_aligned (a b : Coord) (S : Finset Coord)
    (h : a.1 = b.1 ∨ a.2 = b.2 ∨ (a.1 - b.1).natAbs = (a.2 - b.2).natAbs) :
    has_los a b S = has_los b a S := by
  obtain ⟨x0, y0⟩ := a
  obtain ⟨x1, y1⟩ := b
  by_cases hab : ((x0, y0) : Coord) = (x1, y1)
  · rw [hab]
  · simp only [Prod.mk.injEq, not_and] at hab
    rcases h with hx | hy | hd
    · -- vertical: x0 = x1, y0 ≠ y1
      simp only at hx
      subst hx
      have hne : y0 ≠ y1 := fun hc => hab rfl hc
      rw [has_los_vert_interior x0 y0 y1 S hne, has_los_vert_interior x0 y1 y0 S hne.symm]
      refine decide_eq_decide.mpr ?_
      rw [show (y0 - y1).natAbs = (y1 - y0).natAbs from by omega]
      refine forall_interior_flip _ _ _ ?_
      intro t ht0 htn
      have hc : ((((y1 - y0).natAbs - t : ℕ)) : ℤ) = (((y1 - y0).natAbs : ℕ) : ℤ) - t := by
        omega
      rw [show ((x0, y1 + (if y1 < y0 then (1 : ℤ) else -1) * ((((y1 - y0).natAbs - t : ℕ)) : ℤ)) : Coord)
          = (x0, y0 + (if y0 < y1 then (1 : ℤ) else -1) * (t : ℤ)) from by
        simp only [Prod.mk.injEq]
        refine ⟨trivial, ?_⟩
        rw [hc]
        split <;> split <;> omega]
    · -- horizontal: y0 = y1, x0 ≠ x1
      simp only at hy
      subst hy
      have hne : x0 ≠ x1 := fun hc => hab hc rfl
      rw [has_los_horiz_interior x0 x1 y0 S hne, has_los_horiz_interior x1 x0 y0 S hne.symm]
      refine decide_eq_decide.mpr ?_
      rw [show (x0 - x1).natAbs = (x1 - x0).natAbs from by omega]
      refine forall_interior_flip _ _ _ ?_
      intro t ht0 htn
      have hc : ((((x1 - x0).natAbs - t : ℕ)) : ℤ) = (((x1 - x0).natAbs : ℕ) : ℤ) - t := by
        omega
      rw [show ((x1 + (if x1 < x0 then (1 : ℤ) else -1) * ((((x1 - x0).natAbs - t : ℕ)) : ℤ), y0) : Coord)
          = (x0 + (if x0 < x1 then (1 : ℤ) else -1) * (t : ℤ), y0) from by
        simp only [Prod.mk.injEq]
        refine ⟨?_, trivial⟩
        rw [hc]
        split <;> split <;> omega]
    · -- 45-degree diagonal
      simp only at hd
      have hne : x0 ≠ x1 := by
        intro hc
        subst hc
        exact hab rfl (by omega)
      have hd1 : (x1 - x0).natAbs = (y1 - y0).natAbs := by omega
      have hd2 : (x0 - x1).natAbs = (y0 - y1).natAbs := by omega
      rw [has_los_diag_interior x0 y0 x1 y1 S hne hd1,
        has_los_diag_interior x1 y1 x0 y0 S hne.symm hd2]
      refine decide_eq_decide.mpr ?_
      rw [show (x0 - x1).natAbs = (x1 - x0).natAbs from by omega]
      refine forall_interior_flip _ _ _ ?_
      intro t ht0 htn
      have hc : ((((x1 - x0).natAbs - t : ℕ)) : ℤ) = (((x1 - x0).natAbs : ℕ) : ℤ) - t := by
        omega
      rw [show ((x1 + (if x1 < x0 then (1 : ℤ) else -1) * ((((x1 - x0).natAbs - t : ℕ)) : ℤ),
            y1 + (if y1 < y0 then (1 : ℤ) else -1) * ((((x1 - x0).natAbs - t : ℕ)) : ℤ)) : Coord)
          = (x0 + (if x0 < x1 then (1 : ℤ) else -1) * (t : ℤ),
             y0 + (if y0 < y1 then (1 : ℤ) else -1) * (t : ℤ)) from by
        simp only [Prod.mk.injEq]
        constructor
        · rw [hc]
          split <;> split <;> omega
        · rw [hc]
          split <;> split <;> omega]

/-- C6 amended witness: symmetry applied on a diagonal pair with a wall
beside the line. -/
theorem C6_amended_los_symmetric_aligned_witness :
    has_los (0, 0) (3, 3) {((1 : ℤ), (2 : ℤ))} = has_los (3, 3) (0, 0) {((1 : ℤ), (2 : ℤ))} :=
  C6_amended_los_symmetric_aligned (0, 0) (3, 3) {((1 : ℤ), (2 : ℤ))}
    (Or.inr (Or.inr (by decide)))

/-! ## `app.py` — `bfs_reachable`

The movement-range scan: a FIFO breadth-first search from `origin`,
stopping expansion at depth `max_steps`, honoring walls and a
caller-supplied extra blocked-set.  The deque/visited/reachable triple is
the loop state; one fuel unit per popped entry.  Every enqueued entry
inserts a fresh in-bounds cell into `visited`, so at most
`cols * rows + 1` entries ever exist and `cols * rows + 2` fuel never
runs out. -/

structure BfsState where
  frontier : List (Coord × ℕ)
  visited : Finset Coord
  reachable : Finset Coord

/-- One neighbour check of the inner `for` loop of `bfs_reachable`. -/
def bfs_step (tmap : TileMap) (extra_blocked : Finset Coord) (st : BfsState)
    (d1 : ℕ) (nc : Coord) : BfsState :=
  if ¬ tmap.in_bounds nc ∨ ¬ tmap.passable nc ∨ nc ∈ extra_blocked ∨ nc ∈ st.visited then st
  else
    { frontier := st.frontier ++ [(nc, d1)],
      visited := insert nc st.visited,
      reachable := insert nc st.reachable }

/-- The `while frontier` loop of `bfs_reachable`. -/
def bfs_loop (tmap : TileMap) (extra_blocked : Finset Coord) (max_steps : ℕ) :
    ℕ → BfsState → Finset Coord
  | 0, st => st.reachable
  | fuel + 1, st =>
    match st.frontier with
    | [] => st.reachable
    | ((ci, cj), d) :: rest =>
      if d = max_steps then
        bfs_loop tmap extra_blocked max_steps fuel { st with frontier := rest }
      else
        bfs_loop tmap extra_blocked max_steps fuel
          ((neighbors_4 ci cj).foldl
            (fun s nc => bfs_step tmap extra_blocked s (d + 1) nc)
            { st with frontier := rest })

/-- `bfs_reachable(origin, max_steps, tmap, extra_blocked)` from `app.py`. -/
def bfs_reachable (origin : Coord) (max_steps : ℕ) (tmap : TileMap)
    (extra_blocked : Finset Coord) : Finset Coord :=
  bfs_loop tmap extra_blocked max_steps (tmap.cols.toNat * tmap.rows.toNat + 2)
    { frontier := [(origin, 0)], visited := {origin}, reachable := ∅ }

/-! ### Monotonicity of the range scan in the step bound (C8) -/

/-- FIFO frontier invariant of a `bfs_reachable` run with bound `N`: depths
are nondecreasing along the deque, any two depths are within one of each
other, and all depths are at most `N`. -/
def bfs_inv (N : ℕ) (q : List (Coord × ℕ)) : Prop :=
  List.Pairwise (fun a b : Coord × ℕ => a.2 ≤ b.2) q ∧
  (∀ a ∈ q, ∀ b ∈ q, a.2 ≤ b.2 + 1) ∧
  (∀ a ∈ q, a.2 ≤ N)

/-- One-step unfolding of `bfs_loop` on a non-empty frontier. -/
theorem bfs_loop_cons (tmap : TileMap) (extra_blocked : Finset Coord)
    (M fuel : ℕ) (ci cj : ℤ) (d : ℕ) (rest : List (Coord × ℕ))
    (vis reach : Finset Coord) :
    bfs_loop tmap extra_blocked M (fuel + 1) ⟨((ci, cj), d) :: rest, vis, reach⟩
      = if d = M then bfs_loop tmap extra_blocked M fuel ⟨rest, vis, reach⟩
        else bfs_loop tmap extra_blocked M fuel
          ((neighbors_4 ci cj).foldl
            (fun s nc => bfs_step tmap extra_blocked s (d + 1) nc)
            ⟨rest, vis, reach⟩) := rfl

/-- One-step unfolding of `bfs_loop` on an empty frontier. -/
theorem bfs_loop_nil (tmap : TileMap) (extra_blocked : Finset Coord)
    (M fuel : ℕ) (vis reach : Finset Coord) :
    bfs_loop tmap extra_blocked M (fuel + 1) ⟨[], vis, reach⟩ = reach := rfl

/-- A `bfs_step` pass over a neighbour list appends only depth-`d1`
entries, never touches existing ones, and only grows `reachable`. -/
theorem bfs_foldl_spec (tmap : TileMap) (extra_blocked : Finset Coord)
    (d1 : ℕ) :
    ∀ (l : List Coord) (st : BfsState),
      ∃ new : List (Coord × ℕ),
        (l.foldl (fun s nc => bfs_step tmap extra_blocked s d1 nc) st).frontier
            = st.frontier ++ new ∧
        (∀ e ∈ new, e.2 = d1) ∧
        st.reachable ⊆
          (l.foldl (fun s nc => bfs_step tmap extra_blocked s d1 nc) st).reachable := by
  intro l
  induction l with
  | nil => exact fun st => ⟨[], by simp⟩
  | cons nc t ih =>
    intro st
    rw [List.foldl_cons]
    by_cases hcond : ¬ tmap.in_bounds nc ∨ ¬ tmap.passable nc ∨
        nc ∈ extra_blocked ∨ nc ∈ st.visited
    · rw [show bfs_step tmap extra_blocked st d1 nc = st from by
        unfold bfs_step; rw [if_pos hcond]]
      exact ih st
    · rw [show bfs_step tmap extra_blocked st d1 nc
          = ⟨st.frontier ++ [(nc, d1)], insert nc st.visited, insert nc st.reachable⟩ from by
        unfold bfs_step; rw [if_neg hcond]]
      obtain ⟨new, hfr, hdep, hreach⟩ :=
        ih ⟨st.frontier ++ [(nc, d1)], insert nc st.visited, insert nc st.reachable⟩
      refine ⟨(nc, d1) :: new, ?_, ?_, ?_⟩
      · rw [hfr]
        simp
      · intro e he
        rcases List.mem_cons.1 he with rfl | he
        · rfl
        · exact hdep e he
      · exact fun c hc => hreach (Finset.mem_insert_of_mem hc)

/-- Along any `bfs_loop` run, `reachable` only grows. -/
theorem bfs_loop_reachable_mono (tmap : TileMap) (extra_blocked : Finset Coord)
    (M : ℕ) :
    ∀ (fuel : ℕ) (st : BfsState),
      st.reachable ⊆ bfs_loop tmap extra_blocked M fuel st := by
  intro fuel
  induction fuel with
  | zero => exact fun st => Finset.Subset.refl _
  | succ fuel ih =>
    rintro ⟨q, vis, reach⟩
    match q with
    | [] =>
      rw [bfs_loop_nil]
    | ((ci, cj), d) :: rest =>
      rw [bfs_loop_cons]
      split
      · exact ih ⟨rest, vis, reach⟩
      · obtain ⟨new, hfr2, hdep, hreach⟩ := bfs_foldl_spec tmap extra_blocked (d + 1)
          (neighbors_4 ci cj) ⟨rest, vis, reach⟩
        exact Finset.Subset.trans hreach (ih _)

/-- A run whose whole frontier sits at the cut-off depth `N` discovers
nothing more: every entry is popped by the `d == max_steps` branch. -/
theorem bfs_loop_all_cutoff (tmap : TileMap) (extra_blocked : Finset Coord)
    (N : ℕ) :
    ∀ (fuel : ℕ) (st : BfsState), (∀ e ∈ st.frontier, e.2 = N) →
      bfs_loop tmap extra_blocked N fuel st = st.reachable := by
  intro fuel
  induction fuel with
  | zero => exact fun st _ => rfl
  | succ fuel ih =>
    rintro ⟨q, vis, reach⟩ hall
    match q with
    | [] =>
      rw [bfs_loop_nil]
    | ((ci, cj), d) :: rest =>
      have hd : d = N := hall ((ci, cj), d) (List.mem_cons_self _ _)
      rw [bfs_loop_cons, if_pos hd]
      exact ih ⟨rest, vis, reach⟩ (fun e he => hall e (List.mem_cons_of_mem _ he))

/-- Core of C8: with a FIFO-invariant frontier, enlarging the step bound
from `N` to `N + 1` can only enlarge the reachable set, for the same fuel. -/
theorem bfs_loop_mono_steps (tmap : TileMap) (extra_blocked : Finset Coord)
    (N : ℕ) :
    ∀ (fuel : ℕ) (st : BfsState), bfs_inv N st.frontier →
      bfs_loop tmap extra_blocked N fuel st
        ⊆ bfs_loop tmap extra_blocked (N + 1) fuel st := by
  intro fuel
  induction fuel with
  | zero => exact fun st _ => Finset.Subset.refl _
  | succ fuel ih =>
    rintro ⟨q, vis, reach⟩ hinv
    rcases q with - | ⟨⟨⟨ci, cj⟩, d⟩, rest⟩
    · rw [bfs_loop_nil, bfs_loop_nil]
    · obtain ⟨hpair, hwithin, hle⟩ := hinv
      have hhead := (List.pairwise_cons.1 hpair).1
      by_cases hd : d = N
      · -- the `N` run discards the whole (all-depth-`N`) frontier, while the
        -- `N + 1` run keeps exploring; `reachable` only ever grows.
        rw [bfs_loop_cons, if_pos hd]
        have hall : ∀ e ∈ rest, e.2 = N := by
          intro e he
          have h1 : d ≤ e.2 := hhead e he
          have h2 : e.2 ≤ N := hle e (List.mem_cons_of_mem _ he)
          omega
        rw [bfs_loop_all_cutoff tmap extra_blocked N fuel ⟨rest, vis, reach⟩ hall]
        rw [bfs_loop_cons, if_neg (by omega : ¬ d = N + 1)]
        obtain ⟨new, hfr2, hdep, hreach⟩ := bfs_foldl_spec tmap extra_blocked (d + 1)
          (neighbors_4 ci cj) ⟨rest, vis, reach⟩
        exact Finset.Subset.trans hreach
          (bfs_loop_reachable_mono tmap extra_blocked (N + 1) fuel _)
      · -- below the cut-off both runs take the identical expansion step.
        have hdN : d ≤ N := hle _ (List.mem_cons_self _ _)
        have hdlt : d < N := lt_of_le_of_ne hdN hd
        rw [bfs_loop_cons, if_neg hd, bfs_loop_cons, if_neg (by omega : ¬ d = N + 1)]
        obtain ⟨new, hfr2, hdep, hreach⟩ := bfs_foldl_spec tmap extra_blocked (d + 1)
          (neighbors_4 ci cj) ⟨rest, vis, reach⟩
        refine ih _ ?_
        rw [hfr2]
        have hresttail : ∀ a ∈ rest, a.2 ≤ d + 1 := by
          intro a ha
          exact hwithin a (List.mem_cons_of_mem _ ha) _ (List.mem_cons_self _ _)
      -- frontier invariant for the expanded state `rest ++ new`
        refine ⟨?_, ?_, ?_⟩
        · rw [List.pairwise_append]
          refine ⟨(List.pairwise_cons.1 hpair).2, ?_, ?_⟩
          · exact List.pairwise_of_forall_mem_list
              (fun a ha b hb => by rw [hdep a ha, hdep b hb])
          · intro a ha b hb
            rw [hdep b hb]
            exact hresttail a ha
        · intro a ha b hb
          rcases List.mem_append.1 ha with ha' | ha' <;>
            rcases List.mem_append.1 hb with hb' | hb'
          · exact hwithin a (List.mem_cons_of_mem _ ha') b (List.mem_cons_of_mem _ hb')
          · rw [hdep b hb']
            exact Nat.le_succ_of_le (hresttail a ha')
          · rw [hdep a ha']
            exact Nat.succ_le_succ (hhead b hb')
          · rw [hdep a ha', hdep b hb']
            omega
        · intro a ha
          rcases List.mem_append.1 ha with ha' | ha'
          · exact hle a (List.mem_cons_of_mem _ ha')
          · rw [hdep a ha']
            omega

/-- C8: for every origin, map, extra blocked-set and step bound `N`,
`bfs_reachable(origin, N, …)` is contained in
`bfs_reachable(origin, N + 1, …)`. -/
theorem C8_bfs_reachable_monotone (origin : Coord) (tmap : TileMap)
    (extra_blocked : Finset Coord) (N : ℕ) :
    bfs_reachable origin N tmap extra_blocked
      ⊆ bfs_reachable origin (N + 1) tmap extra_blocked := by
  unfold bfs_reachable
  refine bfs_loop_mono_steps tmap extra_blocked N _ _ ?_
  refine ⟨List.pairwise_singleton _ _, ?_, ?_⟩
  · intro a ha b hb
    rcases List.mem_singleton.1 ha with rfl
    omega
  · intro a ha
    rcases List.mem_singleton.1 ha with rfl
    exact Nat.zero_le N

/-! ## `engine/pathfinding.py` — `a_star`

The A* loop state is the heap (`openq`), the cost map `g` and the
predecessor map `came_from`.  Python dicts are embedded as association
lists whose update prepends (lookup takes the first, i.e. newest,
binding); `heapq` is embedded by its observable contract: `heappush`
adds an entry and `heappop` removes the lexicographically smallest
`(priority, (i, j))` tuple, exactly Python's tuple order. -/

/-- First-match association-list lookup (`dict` lookup / `dict.get`). -/
def alookup {β : Type} : List (Coord × β) → Coord → Option β
  | [], _ => none
  | (k, v) :: rest, x => if x = k then some v else alookup rest x

/-- A heap entry `(priority, item)` as pushed by `a_star`. -/
abbrev AEntry : Type := ℕ × Coord

/-- Python's `<` on `(int, (int, int))` tuples: lexicographic. -/
def entry_lt (a b : AEntry) : Prop :=
  a.1 < b.1 ∨ (a.1 = b.1 ∧ (a.2.1 < b.2.1 ∨ (a.2.1 = b.2.1 ∧ a.2.2 < b.2.2)))

instance entry_lt_dec (a b : AEntry) : Decidable (entry_lt a b) := by
  unfold entry_lt
  infer_instance

/-- `heapq.heappop`: remove and return the smallest entry (`none` on an
empty heap — the loop guard `while openq`). -/
def heappop : List AEntry → Option (AEntry × List AEntry)
  | [] => none
  | e :: rest =>
    let m := rest.foldl (fun best x => if entry_lt x best then x else best) e
    some (m, (e :: rest).erase m)

/-- The A* loop state. -/
structure AStarState where
  openq : List AEntry
  g : List (Coord × ℕ)
  came_from : List (Coord × Coord)

/-- One neighbour relaxation of the inner `for nx, ny in neighbors_4`
loop: bounds check, blocked check, then
`tentative < g.get((nx, ny), 1_000_000_000)` and the triple update
`g[(nx,ny)] = tentative; came_from[(nx,ny)] = current; push(f, (nx,ny))`.
`g[current]` is embedded as `getD 0`: the queue invariant (`aqp` below)
shows every popped node has a `g` binding, so the default is never
exercised — matching the source, where a missing key would be a
`KeyError` that cannot occur. -/
def relax (goal : Coord) (cols rows : ℤ) (blocked : Finset Coord)
    (current : Coord) (st : AStarState) (nbr : Coord) : AStarState :=
  if ¬ (0 ≤ nbr.1 ∧ nbr.1 < cols ∧ 0 ≤ nbr.2 ∧ nbr.2 < rows) then st
  else if nbr ∈ blocked then st
  else if (alookup st.g current).getD 0 + 1 < (alookup st.g nbr).getD 1000000000 then
    -- tentative = g[current] + 1, written out at both use sites
    { openq := ((alookup st.g current).getD 0 + 1 + manhattan nbr goal, nbr) :: st.openq,
      g := (nbr, (alookup st.g current).getD 0 + 1) :: st.g,
      came_from := (nbr, current) :: st.came_from }
  else st

/-- The `while openq` loop of `a_star`: pop the minimum, break on the
goal, otherwise relax the four neighbours.  One fuel unit per iteration;
`a_star` passes fuel exceeding the loop's proven measure bound, so the
fuel never runs out. -/
def a_star_loop (goal : Coord) (cols rows : ℤ) (blocked : Finset Coord) :
    ℕ → AStarState → AStarState
  | 0, st => st
  | fuel + 1, st =>
    match heappop st.openq with
    | none => st
    | some ((_f, current), q') =>
      if current = goal then { st with openq := q' }
      else
        a_star_loop goal cols rows blocked fuel
          ((neighbors_4 current.1 current.2).foldl
            (relax goal cols rows blocked current)
            { st with openq := q' })

/-- The reconstruction loop: walk `came_from` back from `goal`, building
the reversed path (`path.append(node); node = came_from.get(node, start)`
followed by `path.reverse()` builds the same list front-to-back).
`a_star` passes fuel exceeding the goal's `g` value, which the
`came_from` invariant shows bounds the chain length. -/
def reconstruct (came_from : List (Coord × Coord)) (start : Coord) :
    ℕ → Coord → List Coord → List Coord
  | 0, _, acc => acc
  | fuel + 1, node, acc =>
    -- acc' = node :: acc and next = came_from.get(node, start), inlined
    if (alookup came_from node).getD start = start then node :: acc
    else reconstruct came_from start fuel ((alookup came_from node).getD start) (node :: acc)

/-- `a_star(start, goal, cols, rows, blocked)` from `engine/pathfinding.py`. -/
def a_star (start goal : Coord) (cols rows : ℤ) (blocked : Finset Coord) :
    List Coord :=
  if start = goal then []
  else
    let final := a_star_loop goal cols rows blocked
      (2 * 1000000000 * (cols.toNat * rows.toNat) + cols.toNat * rows.toNat + 3)
      { openq := [(0, start)], g := [(start, 0)], came_from := [] }
    if (alookup final.came_from goal).isNone ∧ goal ≠ start then []
    else reconstruct final.came_from start ((alookup final.g goal).getD 0 + 1) goal []

/-! ### Heap pop: the popped entry is a member, the rest is the erasure,
and its priority is minimal -/

theorem entry_lt_fst_le {a b : AEntry} (h : entry_lt a b) : a.1 ≤ b.1 := by
  rcases h with h | ⟨h, -⟩ <;> omega

theorem not_entry_lt_fst_le {a b : AEntry} (h : ¬ entry_lt a b) : b.1 ≤ a.1 := by
  by_contra hc
  push_neg at hc
  exact h (Or.inl hc)

theorem fold_min_spec (rest : List AEntry) :
    ∀ e : AEntry,
      (rest.foldl (fun best x => if entry_lt x best then x else best) e) ∈ e :: rest ∧
      ∀ x ∈ e :: rest,
        (rest.foldl (fun best x => if entry_lt x best then x else best) e).1 ≤ x.1 := by
  induction rest with
  | nil =>
    intro e
    exact ⟨List.mem_cons_self _ _, by
      intro x hx
      rcases List.mem_cons.1 hx with rfl | hx
      · exact le_refl _
      · exact absurd hx (List.not_mem_nil x)⟩
  | cons y t ih =>
    intro e
    rw [List.foldl_cons]
    by_cases hle : entry_lt y e
    · rw [if_pos hle]
      obtain ⟨hmem, hmin⟩ := ih y
      refine ⟨List.mem_cons_of_mem _ hmem, ?_⟩
      intro x hx
      rcases List.mem_cons.1 hx with rfl | hx
      · have h1 := hmin y (List.mem_cons_self _ _)
        have h2 : y.1 ≤ x.1 := entry_lt_fst_le hle
        omega
      · exact hmin x hx
    · rw [if_neg hle]
      obtain ⟨hmem, hmin⟩ := ih e
      constructor
      · rcases List.mem_cons.1 hmem with h | h
        · rw [h]
          exact List.mem_cons_self _ _
        · exact List.mem_cons_of_mem _ (List.mem_cons_of_mem _ h)
      · intro x hx
        rcases List.mem_cons.1 hx with rfl | hx
        · exact hmin x (List.mem_cons_self _ _)
        · rcases List.mem_cons.1 hx with rfl | hx
          · have h1 := hmin e (List.mem_cons_self _ _)
            have h2 : e.1 ≤ x.1 := not_entry_lt_fst_le hle
            omega
          · exact hmin x (List.mem_cons_of_mem _ hx)

theorem heappop_eq_none {q : List AEntry} : heappop q = none ↔ q = [] := by
  cases q <;> simp [heappop]

theorem heappop_spec {q : List AEntry} {m : AEntry} {q' : List AEntry}
    (h : heappop q = some (m, q')) :
    m ∈ q ∧ q' = q.erase m ∧ ∀ x ∈ q, m.1 ≤ x.1 := by
  match q with
  | [] => simp [heappop] at h
  | e :: rest =>
    simp only [heappop, Option.some.injEq, Prod.mk.injEq] at h
    obtain ⟨rfl, rfl⟩ := h
    obtain ⟨hmem, hmin⟩ := fold_min_spec rest e
    exact ⟨hmem, rfl, hmin⟩

/-! ### The mathematical path predicate

A "4-directional path from `start` to `goal` avoiding the blocked-set" is
the list of cells after `start` (matching `a_star`'s output convention):
each step is one of the source's four neighbours, and every cell after
`start` is in bounds and unblocked — exactly the cells `a_star` is
allowed to traverse. -/

def valid_cell (cols rows : ℤ) (blocked : Finset Coord) (c : Coord) : Prop :=
  (0 ≤ c.1 ∧ c.1 < cols ∧ 0 ≤ c.2 ∧ c.2 < rows) ∧ c ∉ blocked

instance valid_cell_dec (cols rows : ℤ) (blocked : Finset Coord) (c : Coord) :
    Decidable (valid_cell cols rows blocked c) := by
  unfold valid_cell
  infer_instance

def is_path (cols rows : ℤ) (blocked : Finset Coord) :
    Coord → Coord → List Coord → Prop
  | s, t, [] => s = t
  | s, t, c :: l =>
    c ∈ neighbors_4 s.1 s.2 ∧ valid_cell cols rows blocked c ∧
      is_path cols rows blocked c t l

instance is_path_dec (cols rows : ℤ) (blocked : Finset Coord) :
    ∀ (s t : Coord) (l : List Coord), Decidable (is_path cols rows blocked s t l)
  | s, t, [] => by unfold is_path; infer_instance
  | s, t, c :: l =>
    have : Decidable (is_path cols rows blocked c t l) :=
      is_path_dec cols rows blocked c t l
    by unfold is_path; infer_instance

theorem manhattan_self (a : Coord) : manhattan a a = 0 := by
  unfold manhattan
  omega

theorem manhattan_nbr {v c : Coord} (h : c ∈ neighbors_4 v.1 v.2) :
    manhattan v c = 1 := by
  simp only [neighbors_4, List.mem_cons, List.not_mem_nil, or_false] at h
  rcases h with rfl | rfl | rfl | rfl <;> (unfold manhattan; simp only; omega)

theorem manhattan_triangle (a c b : Coord) :
    manhattan a b ≤ manhattan a c + manhattan c b := by
  unfold manhattan
  omega

theorem self_not_nbr (v : Coord) : v ∉ neighbors_4 v.1 v.2 := by
  simp only [neighbors_4, List.mem_cons, List.not_mem_nil, or_false]
  rintro (h | h | h | h) <;>
    (rw [Prod.ext_iff] at h; simp only at h; omega)

/-- Any valid path is at least as long as the Manhattan distance. -/
theorem is_path_len_ge (cols rows : ℤ) (blocked : Finset Coord) :
    ∀ (l : List Coord) (s t : Coord),
      is_path cols rows blocked s t l → manhattan s t ≤ l.length := by
  intro l
  induction l with
  | nil =>
    intro s t h
    unfold is_path at h
    subst h
    simp [manhattan_self]
  | cons c l ih =>
    intro s t h
    obtain ⟨hadj, -, hrest⟩ := h
    have h1 := ih c t hrest
    have h2 := manhattan_triangle s c t
    have h3 := manhattan_nbr hadj
    simp only [List.length_cons]
    omega

/-- Extending a path by one more neighbour step. -/
theorem is_path_snoc (cols rows : ℤ) (blocked : Finset Coord) :
    ∀ (l : List Coord) (s m w : Coord),
      is_path cols rows blocked s m l →
      w ∈ neighbors_4 m.1 m.2 → valid_cell cols rows blocked w →
      is_path cols rows blocked s w (l ++ [w]) := by
  intro l
  induction l with
  | nil =>
    intro s m w h hadj hv
    unfold is_path at h
    subst h
    exact ⟨hadj, hv, rfl⟩
  | cons c l ih =>
    rintro s m w ⟨hadj, hv, hrest⟩ h1 h2
    exact ⟨hadj, hv, ih c m w hrest h1 h2⟩

theorem alookup_cons {β : Type} (k : Coord) (v : β) (l : List (Coord × β))
    (x : Coord) :
    alookup ((k, v) :: l) x = if x = k then some v else alookup l x := rfl

/-! ### The A* loop invariant

`ACore` collects the facts about `g` and `came_from`: `g` is sound
(every value is the length of an actual valid path), positive off the
start, below the `1_000_000_000` "infinity" default, every queue entry's
priority dominates the current `g`-value plus heuristic of its node
(except the initial `(0, start)` entry), and `came_from` records a valid
neighbour step whose `g`-values drop by at least one.

`NodeOk` is the per-node workset property: a node with a `g`-value either
still has a queue entry at (at most) its `f`-value, or has already been
expanded from its current value, i.e. all its valid neighbours have
`g`-values at most one larger — except in the degenerate corner where
`g + 1` reaches the source's `1_000_000_000` infinity default, where the
relaxation guard refuses to store the value. -/

structure ACore (start goal : Coord) (cols rows : ℤ) (blocked : Finset Coord)
    (st : AStarState) : Prop where
  gstart : alookup st.g start = some 0
  gpos : ∀ v d, alookup st.g v = some d → v ≠ start → 1 ≤ d
  grange : ∀ v d, alookup st.g v = some d → d < 1000000000
  gsound : ∀ v d, alookup st.g v = some d →
    ∃ l, is_path cols rows blocked start v l ∧ l.length = d
  aqp : ∀ e ∈ st.openq, ∃ d, alookup st.g e.2 = some d ∧
    (d + manhattan e.2 goal ≤ e.1 ∨ (e.2 = start ∧ e.1 = 0))
  cfok : ∀ v p, alookup st.came_from v = some p →
    v ∈ neighbors_4 p.1 p.2 ∧ valid_cell cols rows blocked v ∧
    ∃ dv dp, alookup st.g v = some dv ∧ alookup st.g p = some dp ∧ dp + 1 ≤ dv
  cfdom : ∀ v d, alookup st.g v = some d → v ≠ start →
    ∃ p, alookup st.came_from v = some p

def NodeOk (goal : Coord) (cols rows : ℤ) (blocked : Finset Coord)
    (st : AStarState) (v : Coord) : Prop :=
  ∀ d, alookup st.g v = some d →
    (∃ f, (f, v) ∈ st.openq ∧ f ≤ d + manhattan v goal) ∨
    (∀ w ∈ neighbors_4 v.1 v.2, valid_cell cols rows blocked w →
      (∃ dw, alookup st.g w = some dw ∧ dw ≤ d + 1) ∨ 1000000000 ≤ d + 1)

def AInv (start goal : Coord) (cols rows : ℤ) (blocked : Finset Coord)
    (st : AStarState) : Prop :=
  ACore start goal cols rows blocked st ∧
  ∀ v, NodeOk goal cols rows blocked st v

/-- The in-bounds cells as a finite set, domain of the termination
measure. -/
def gridFinset (cols rows : ℤ) : Finset Coord :=
  Finset.Icc 0 (cols - 1) ×ˢ Finset.Icc 0 (rows - 1)

theorem mem_gridFinset {cols rows : ℤ} {c : Coord} :
    c ∈ gridFinset cols rows ↔ (0 ≤ c.1 ∧ c.1 < cols ∧ 0 ≤ c.2 ∧ c.2 < rows) := by
  unfold gridFinset
  rw [Finset.mem_product, Finset.mem_Icc, Finset.mem_Icc]
  omega

/-- Potential of a cell: its `g`-value, or the `1_000_000_000` infinity
default while undiscovered.  Relaxation strictly lowers it. -/
def apot (g : List (Coord × ℕ)) (v : Coord) : ℕ := (alookup g v).getD 1000000000

/-- Termination measure of the A* loop: each iteration pops one entry and
pays for each push with a potential drop of at least one. -/
def ameasure (cols rows : ℤ) (st : AStarState) : ℕ :=
  2 * (gridFinset cols rows).sum (apot st.g) + st.openq.length

/-- Effect of a single neighbour relaxation on the invariant.  A no-op
preserves everything; an update stores `g[current] + 1` at the neighbour,
records its predecessor and pushes its queue entry — strictly lowering
the neighbour's potential. -/
theorem relax_spec (start goal : Coord) (cols rows : ℤ) (blocked : Finset Coord)
    (current w : Coord) (st : AStarState) (dcur : ℕ)
    (hw : w ∈ neighbors_4 current.1 current.2)
    (hwc : w ≠ current)
    (hcur : alookup st.g current = some dcur)
    (hcore : ACore start goal cols rows blocked st) :
    ACore start goal cols rows blocked (relax goal cols rows blocked current st w) ∧
    alookup (relax goal cols rows blocked current st w).g current = some dcur ∧
    (∀ v, v ≠ current →
      NodeOk goal cols rows blocked st v →
      NodeOk goal cols rows blocked (relax goal cols rows blocked current st w) v) ∧
    (∀ v dv, alookup st.g v = some dv →
      ∃ dv', dv' ≤ dv ∧ alookup (relax goal cols rows blocked current st w).g v = some dv') ∧
    (valid_cell cols rows blocked w →
      (∃ dw, alookup (relax goal cols rows blocked current st w).g w = some dw ∧ dw ≤ dcur + 1) ∨
      1000000000 ≤ dcur + 1) ∧
    (2 * (gridFinset cols rows).sum (apot (relax goal cols rows blocked current st w).g)
        + (relax goal cols rows blocked current st w).openq.length
      ≤ 2 * (gridFinset cols rows).sum (apot st.g) + st.openq.length) ∧
    (∀ e ∈ st.openq, e ∈ (relax goal cols rows blocked current st w).openq) := by
  by_cases hb : (0 ≤ w.1 ∧ w.1 < cols ∧ 0 ≤ w.2 ∧ w.2 < rows)
  case neg =>
    have hst : relax goal cols rows blocked current st w = st := by
      unfold relax
      rw [if_pos hb]
    rw [hst]
    exact ⟨hcore, hcur, fun v _ hv => hv, fun v dv hdv => ⟨dv, le_refl _, hdv⟩,
      fun hval => absurd hval.1 hb, le_refl _, fun e he => he⟩
  case pos =>
  by_cases hbl : w ∈ blocked
  case pos =>
    have hst : relax goal cols rows blocked current st w = st := by
      unfold relax
      rw [if_neg (not_not_intro hb), if_pos hbl]
    rw [hst]
    exact ⟨hcore, hcur, fun v _ hv => hv, fun v dv hdv => ⟨dv, le_refl _, hdv⟩,
      fun hval => absurd hbl hval.2, le_refl _, fun e he => he⟩
  case neg =>
  by_cases hlt : (alookup st.g current).getD 0 + 1 < (alookup st.g w).getD 1000000000
  case neg =>
    have hst : relax goal cols rows blocked current st w = st := by
      unfold relax
      rw [if_neg (not_not_intro hb), if_neg hbl, if_neg hlt]
    rw [hst]
    have hnlt : (alookup st.g w).getD 1000000000 ≤ dcur + 1 := by
      rw [hcur] at hlt
      simp only [Option.getD_some] at hlt
      omega
    refine ⟨hcore, hcur, fun v _ hv => hv, fun v dv hdv => ⟨dv, le_refl _, hdv⟩,
      ?_, le_refl _, fun e he => he⟩
    intro _
    rcases hcase : alookup st.g w with - | dwold
    · rw [hcase] at hnlt
      simp only [Option.getD_none] at hnlt
      exact Or.inr hnlt

    · rw [hcase] at hnlt
      simp only [Option.getD_some] at hnlt
      exact Or.inl ⟨dwold, rfl, hnlt⟩
  case pos =>
    have hltd : dcur + 1 < (alookup st.g w).getD 1000000000 := by
      rw [hcur] at hlt
      simpa using hlt
    have hst : relax goal cols rows blocked current st w
        = ⟨(dcur + 1 + manhattan w goal, w) :: st.openq,
           (w, dcur + 1) :: st.g, (w, current) :: st.came_from⟩ := by
      unfold relax
      rw [if_neg (not_not_intro hb), if_neg hbl, if_pos hlt, hcur]
      rfl
    rw [hst]
    have hwstart : w ≠ start := by
      intro h
      rw [h, hcore.gstart] at hltd
      simp at hltd
    have hnewrange : dcur + 1 < 1000000000 := by
      rcases hcase : alookup st.g w with - | dwold
      · rw [hcase] at hltd
        simpa using hltd
      · rw [hcase] at hltd
        simp only [Option.getD_some] at hltd
        exact lt_trans hltd (hcore.grange w dwold hcase)
    have hcurne : current ≠ w := Ne.symm hwc
    refine ⟨?_, ?_, ?_, ?_, ?_, ?_, ?_⟩
    · -- ACore for the updated state
      refine
        { gstart := ?_, gpos := ?_, grange := ?_, gsound := ?_,
          aqp := ?_, cfok := ?_, cfdom := ?_ }
      · rw [alookup_cons, if_neg (Ne.symm hwstart)]
        exact hcore.gstart
      · intro v d hd hvs
        rw [alookup_cons] at hd
        by_cases hvw : v = w
        · rw [if_pos hvw] at hd
          have := Option.some.inj hd
          omega
        · rw [if_neg hvw] at hd
          exact hcore.gpos v d hd hvs
      · intro v d hd
        rw [alookup_cons] at hd
        by_cases hvw : v = w
        · rw [if_pos hvw] at hd
          have := Option.some.inj hd
          omega
        · rw [if_neg hvw] at hd
          exact hcore.grange v d hd
      · intro v d hd
        rw [alookup_cons] at hd
        by_cases hvw : v = w
        · rw [if_pos hvw] at hd
          obtain ⟨l, hl, hlen⟩ := hcore.gsound current dcur hcur
          have := Option.some.inj hd
          refine ⟨l ++ [w], ?_, by simp [hlen]; omega⟩
          rw [hvw]
          exact is_path_snoc cols rows blocked l start current w hl hw ⟨hb, hbl⟩
        · rw [if_neg hvw] at hd
          exact hcore.gsound v d hd
      · intro e he
        rcases List.mem_cons.1 he with rfl | he
        · refine ⟨dcur + 1, ?_, Or.inl (le_refl _)⟩
          rw [alookup_cons, if_pos rfl]
        · obtain ⟨d, hd, hdisj⟩ := hcore.aqp e he
          by_cases hew : e.2 = w
          · rw [hew] at hd
            rw [hd] at hltd
            simp only [Option.getD_some] at hltd
            refine ⟨dcur + 1, ?_, ?_⟩
            · rw [alookup_cons, if_pos hew]
            · rcases hdisj with hle | ⟨hes, -⟩
              · exact Or.inl (by omega)
              · exact absurd (hew ▸ hes : w = start) hwstart
          · refine ⟨d, ?_, hdisj⟩
            rw [alookup_cons, if_neg hew]
            exact hd
      · intro v p hcp
        rw [alookup_cons] at hcp
        by_cases hvw : v = w
        · rw [if_pos hvw] at hcp
          have hp := (Option.some.inj hcp).symm
          subst hp
          subst hvw
          refine ⟨hw, ⟨hb, hbl⟩, dcur + 1, dcur, ?_, ?_, le_refl _⟩
          · rw [alookup_cons, if_pos rfl]
          · rw [alookup_cons, if_neg hcurne]
            exact hcur
        · rw [if_neg hvw] at hcp
          obtain ⟨hadj, hval, dv, dp, hdv, hdp, hle⟩ := hcore.cfok v p hcp
          refine ⟨hadj, hval, ?_⟩
          by_cases hpw : p = w
          · rw [hpw] at hdp
            rw [hdp] at hltd
            simp only [Option.getD_some] at hltd
            refine ⟨dv, dcur + 1, ?_, ?_, by omega⟩
            · rw [alookup_cons, if_neg hvw]
              exact hdv
            · rw [alookup_cons, if_pos hpw]
          · refine ⟨dv, dp, ?_, ?_, hle⟩
            · rw [alookup_cons, if_neg hvw]
              exact hdv
            · rw [alookup_cons, if_neg hpw]
              exact hdp
      · intro v d hd hvs
        rw [alookup_cons] at hd
        by_cases hvw : v = w
        · exact ⟨current, by rw [alookup_cons, if_pos hvw]⟩
        · rw [if_neg hvw] at hd
          obtain ⟨p, hp⟩ := hcore.cfdom v d hd hvs
          exact ⟨p, by rw [alookup_cons, if_neg hvw]; exact hp⟩
    · rw [alookup_cons, if_neg hcurne]
      exact hcur
    · -- NodeOk transfer for nodes other than `current`
      intro v hvc hnode d hd
      rw [alookup_cons] at hd
      by_cases hvw : v = w
      · rw [if_pos hvw] at hd
        have hdval := Option.some.inj hd
        refine Or.inl ⟨dcur + 1 + manhattan w goal, ?_, ?_⟩
        · rw [hvw]
          exact List.mem_cons_self _ _
        · rw [hvw]
          omega
      · rw [if_neg hvw] at hd
        rcases hnode d hd with ⟨f0, hf0, hle⟩ | hset
        · exact Or.inl ⟨f0, List.mem_cons_of_mem _ hf0, hle⟩
        · refine Or.inr ?_
          intro u hu huval
          rcases hset u hu huval with ⟨du, hdu, hdule⟩ | hbig
          · by_cases huw : u = w
            · rw [huw] at hdu
              rw [hdu] at hltd
              simp only [Option.getD_some] at hltd
              refine Or.inl ⟨dcur + 1, ?_, by omega⟩
              rw [alookup_cons, if_pos huw]
            · refine Or.inl ⟨du, ?_, hdule⟩
              rw [alookup_cons, if_neg huw]
              exact hdu
          · exact Or.inr hbig
    · -- `g` only decreases (pointwise, on its domain)
      intro v dv hdv
      by_cases hvw : v = w
      · rw [hvw] at hdv
        rw [hdv] at hltd
        simp only [Option.getD_some] at hltd
        exact ⟨dcur + 1, by omega, by rw [alookup_cons, if_pos hvw]⟩
      · exact ⟨dv, le_refl _, by rw [alookup_cons, if_neg hvw]; exact hdv⟩
    · -- the relaxed neighbour now has a value at most `dcur + 1`
      intro _
      exact Or.inl ⟨dcur + 1, by rw [alookup_cons, if_pos rfl], le_refl _⟩
    · -- measure: one push, potential drop of at least one at `w`
      have hwgrid : w ∈ gridFinset cols rows := mem_gridFinset.2 hb
      have hpoint : ∀ v ∈ gridFinset cols rows,
          apot ((w, dcur + 1) :: st.g) v ≤ apot st.g v := by
        intro v _
        unfold apot
        rw [alookup_cons]
        by_cases hvw : v = w
        · rw [if_pos hvw, hvw]
          simp only [Option.getD_some]
          omega
        · rw [if_neg hvw]
      have hstrict : apot ((w, dcur + 1) :: st.g) w < apot st.g w := by
        unfold apot
        rw [alookup_cons, if_pos rfl]
        simpa using hltd
      have hsum : (gridFinset cols rows).sum (apot ((w, dcur + 1) :: st.g)) + 1
          ≤ (gridFinset cols rows).sum (apot st.g) :=
        Finset.sum_lt_sum hpoint ⟨w, hwgrid, hstrict⟩
      have hconv1 : (∑ x ∈ gridFinset cols rows, apot ((w, dcur + 1) :: st.g) x)
          = (gridFinset cols rows).sum (apot ((w, dcur + 1) :: st.g)) := rfl
      have hconv2 : (∑ x ∈ gridFinset cols rows, apot st.g x)
          = (gridFinset cols rows).sum (apot st.g) := rfl
      simp only [List.length_cons]
      omega
    · exact fun e he => List.mem_cons_of_mem _ he

/-- Effect of the whole neighbour pass from a popped node `current`. -/
theorem relax_fold_spec (start goal : Coord) (cols rows : ℤ)
    (blocked : Finset Coord) (current : Coord) (dcur : ℕ) :
    ∀ (l : List Coord) (s : AStarState),
      (∀ w ∈ l, w ∈ neighbors_4 current.1 current.2) →
      current ∉ l →
      alookup s.g current = some dcur →
      ACore start goal cols rows blocked s →
      ACore start goal cols rows blocked
          (l.foldl (relax goal cols rows blocked current) s) ∧
      alookup (l.foldl (relax goal cols rows blocked current) s).g current
          = some dcur ∧
      (∀ v, v ≠ current → NodeOk goal cols rows blocked s v →
        NodeOk goal cols rows blocked
          (l.foldl (relax goal cols rows blocked current) s) v) ∧
      (∀ w ∈ l, valid_cell cols rows blocked w →
        (∃ dw, alookup (l.foldl (relax goal cols rows blocked current) s).g w
            = some dw ∧ dw ≤ dcur + 1) ∨ 1000000000 ≤ dcur + 1) ∧
      (2 * (gridFinset cols rows).sum
            (apot (l.foldl (relax goal cols rows blocked current) s).g)
          + (l.foldl (relax goal cols rows blocked current) s).openq.length
        ≤ 2 * (gridFinset cols rows).sum (apot s.g) + s.openq.length) ∧
      (∀ e ∈ s.openq, e ∈ (l.foldl (relax goal cols rows blocked current) s).openq) ∧
      (∀ v dv, alookup s.g v = some dv →
        ∃ dv', dv' ≤ dv ∧
          alookup (l.foldl (relax goal cols rows blocked current) s).g v = some dv') := by
  intro l
  induction l with
  | nil =>
    intro s _ _ hcurg hcore
    exact ⟨hcore, hcurg, fun v _ hv => hv, fun w hw => absurd hw (List.not_mem_nil w),
      le_refl _, fun e he => he, fun v dv hdv => ⟨dv, le_refl _, hdv⟩⟩
  | cons w t ih =>
    intro s hadj hnotin hcurg hcore
    rw [List.foldl_cons]
    have hwadj : w ∈ neighbors_4 current.1 current.2 := hadj w (List.mem_cons_self _ _)
    have hwc : w ≠ current := by
      intro h
      exact hnotin (h ▸ List.mem_cons_self _ _)
    obtain ⟨Rcore, Rcur, Rnode, Rdec, Rrel, Rmeas, Rq⟩ :=
      relax_spec start goal cols rows blocked current w s dcur hwadj hwc hcurg hcore
    obtain ⟨Icore, Icur, Inode, Irel, Imeas, Iq, Idec⟩ :=
      ih (relax goal cols rows blocked current s w)
        (fun u hu => hadj u (List.mem_cons_of_mem _ hu))
        (fun hc => hnotin (List.mem_cons_of_mem _ hc)) Rcur Rcore
    refine ⟨Icore, Icur, ?_, ?_, ?_, ?_, ?_⟩
    · exact fun v hvc hv => Inode v hvc (Rnode v hvc hv)
    · intro u hu huval
      rcases List.mem_cons.1 hu with rfl | hu
      · rcases Rrel huval with ⟨dw, hdw, hdwle⟩ | hbig
        · obtain ⟨dw', hdw'le, hdw'⟩ := Idec u dw hdw
          exact Or.inl ⟨dw', hdw', by omega⟩
        · exact Or.inr hbig
      · exact Irel u hu huval
    · exact le_trans Imeas Rmeas
    · exact fun e he => Iq e (Rq e he)
    · intro v dv hdv
      obtain ⟨dv1, h1, hdv1⟩ := Rdec v dv hdv
      obtain ⟨dv2, h2, hdv2⟩ := Idec v dv1 hdv1
      exact ⟨dv2, by omega, hdv2⟩

/-- When `g` is closed under relaxation (no queue entries left), walking
any short valid path shows `g` bounds the distance along it. -/
theorem closure_walk (cols rows : ℤ) (blocked : Finset Coord)
    (g : List (Coord × ℕ))
    (hset : ∀ v d, alookup g v = some d → ∀ w ∈ neighbors_4 v.1 v.2,
      valid_cell cols rows blocked w →
      (∃ dw, alookup g w = some dw ∧ dw ≤ d + 1) ∨ 1000000000 ≤ d + 1) :
    ∀ (l : List Coord) (v0 v : Coord) (d0 : ℕ),
      alookup g v0 = some d0 → is_path cols rows blocked v0 v l →
      d0 + l.length < 1000000000 →
      ∃ d, alookup g v = some d ∧ d ≤ d0 + l.length := by
  intro l
  induction l with
  | nil =>
    intro v0 v d0 hd0 hp hlt
    unfold is_path at hp
    subst hp
    exact ⟨d0, hd0, by omega⟩
  | cons c t ih =>
    rintro v0 v d0 hd0 ⟨hadj, hval, hrest⟩ hlt
    simp only [List.length_cons] at hlt
    rcases hset v0 d0 hd0 c hadj hval with ⟨dc, hdc, hdcle⟩ | hbig
    · obtain ⟨d, hd, hdle⟩ := ih c v dc hdc hrest (by omega)
      exact ⟨d, hd, by simp only [List.length_cons]; omega⟩
    · omega

/-- When the minimum of the queue is a `goal` entry, walking any short
valid path to the goal shows `g goal` is at most the path length: the
admissible Manhattan heuristic keeps every intermediate witness entry's
priority below the path length, so the minimal goal priority — which
dominates `g goal` — is too. -/
theorem goalpop_walk (start goal : Coord) (cols rows : ℤ)
    (blocked : Finset Coord) (st : AStarState) (f : ℕ)
    (hsg : goal ≠ start)
    (hcore : ACore start goal cols rows blocked st)
    (hnode : ∀ v, NodeOk goal cols rows blocked st v)
    (hmem : (f, goal) ∈ st.openq)
    (hmin : ∀ x ∈ st.openq, f ≤ x.1) :
    ∀ (l : List Coord) (v0 : Coord) (d0 k0 : ℕ),
      alookup st.g v0 = some d0 → d0 ≤ k0 →
      is_path cols rows blocked v0 goal l →
      k0 + l.length < 1000000000 →
      ∃ dG, alookup st.g goal = some dG ∧ dG ≤ k0 + l.length := by
  intro l
  induction l with
  | nil =>
    intro v0 d0 k0 hd0 hk hp hlt
    unfold is_path at hp
    subst hp
    exact ⟨d0, hd0, by omega⟩
  | cons c t ih =>
    rintro v0 d0 k0 hd0 hk ⟨hadj, hval, hrest⟩ hlt
    simp only [List.length_cons] at hlt
    rcases hnode v0 d0 hd0 with ⟨f0, hf0, hf0le⟩ | hset
    · have hlb := is_path_len_ge cols rows blocked (c :: t) v0 goal ⟨hadj, hval, hrest⟩
      have hf : f ≤ f0 := hmin (f0, v0) hf0
      obtain ⟨dG, hdG, hdisj⟩ := hcore.aqp (f, goal) hmem
      rcases hdisj with hle | ⟨hgs, -⟩
      · rw [manhattan_self] at hle
        refine ⟨dG, hdG, ?_⟩
        simp only [List.length_cons] at hlb ⊢
        omega
      · exact absurd hgs hsg
    · rcases hset c hadj hval with ⟨dc, hdc, hdcle⟩ | hbig
      · obtain ⟨dG, hdG, hle⟩ := ih c dc (k0 + 1) hdc (by omega) hrest (by omega)
        exact ⟨dG, hdG, by simp only [List.length_cons]; omega⟩
      · omega

/-- What holds of the state the A* loop returns: the `g`/`came_from`
facts needed for reconstruction, and the optimal bound on `g goal`
whenever a short path to the goal exists. -/
structure APost (start goal : Coord) (cols rows : ℤ) (blocked : Finset Coord)
    (st : AStarState) : Prop where
  grange : ∀ v d, alookup st.g v = some d → d < 1000000000
  cfok : ∀ v p, alookup st.came_from v = some p →
    v ∈ neighbors_4 p.1 p.2 ∧ valid_cell cols rows blocked v ∧
    ∃ dv dp, alookup st.g v = some dv ∧ alookup st.g p = some dp ∧ dp + 1 ≤ dv
  cfdom : ∀ v d, alookup st.g v = some d → v ≠ start →
    ∃ p, alookup st.came_from v = some p
  goalbound : ∀ l, is_path cols rows blocked start goal l →
    l.length < 1000000000 →
    ∃ dG, alookup st.g goal = some dG ∧ dG ≤ l.length

theorem a_star_loop_succ (goal : Coord) (cols rows : ℤ) (blocked : Finset Coord)
    (fuel : ℕ) (st : AStarState) :
    a_star_loop goal cols rows blocked (fuel + 1) st
      = match heappop st.openq with
        | none => st
        | some ((_f, current), q') =>
          if current = goal then { st with openq := q' }
          else a_star_loop goal cols rows blocked fuel
            ((neighbors_4 current.1 current.2).foldl
              (relax goal cols rows blocked current) { st with openq := q' }) := rfl

/-- Main A* loop theorem: from an invariant state with fuel above the
measure, the loop establishes `APost`. -/
theorem a_star_loop_post (start goal : Coord) (cols rows : ℤ)
    (blocked : Finset Coord) (hsg : goal ≠ start) :
    ∀ (fuel : ℕ) (st : AStarState),
      AInv start goal cols rows blocked st →
      ameasure cols rows st < fuel →
      APost start goal cols rows blocked
        (a_star_loop goal cols rows blocked fuel st) := by
  intro fuel
  induction fuel with
  | zero => exact fun st _ h => absurd h (Nat.not_lt_zero _)
  | succ fuel ih =>
    rintro st ⟨hcore, hnode⟩ hmeas
    rw [a_star_loop_succ]
    rcases hpop : heappop st.openq with - | ⟨⟨f, current⟩, q'⟩
    · -- queue exhausted: `g` is closed under relaxation
      have hempty : st.openq = [] := heappop_eq_none.1 hpop
      refine { grange := hcore.grange, cfok := hcore.cfok,
               cfdom := hcore.cfdom, goalbound := ?_ }
      intro l hl hlen
      have hset : ∀ v d, alookup st.g v = some d → ∀ w ∈ neighbors_4 v.1 v.2,
          valid_cell cols rows blocked w →
          (∃ dw, alookup st.g w = some dw ∧ dw ≤ d + 1) ∨ 1000000000 ≤ d + 1 := by
        intro v d hd
        rcases hnode v d hd with ⟨f0, hf0, -⟩ | hs
        · rw [hempty] at hf0
          exact absurd hf0 (List.not_mem_nil _)
        · exact hs
      obtain ⟨dG, hdG, hle⟩ :=
        closure_walk cols rows blocked st.g hset l start goal 0 hcore.gstart hl
          (by omega)
      exact ⟨dG, hdG, by omega⟩
    · obtain ⟨hmem, herase, hmin⟩ := heappop_spec hpop
      show APost start goal cols rows blocked
        (if current = goal then { st with openq := q' }
         else a_star_loop goal cols rows blocked fuel
           ((neighbors_4 current.1 current.2).foldl
             (relax goal cols rows blocked current) { st with openq := q' }))
      by_cases hcg : current = goal
      · -- the goal was popped: its `g` value is optimal
        rw [if_pos hcg]
        subst hcg
        refine { grange := hcore.grange, cfok := hcore.cfok,
                 cfdom := hcore.cfdom, goalbound := ?_ }
        intro l hl hlen
        obtain ⟨dG, h1, h2⟩ :=
          goalpop_walk start current cols rows blocked st f hsg hcore hnode hmem
            hmin l start 0 0 hcore.gstart (le_refl 0) hl (by omega)
        exact ⟨dG, h1, by omega⟩
      · rw [if_neg hcg]
        obtain ⟨dcur, hdcur, -⟩ := hcore.aqp (f, current) hmem
        have hcore1 : ACore start goal cols rows blocked { st with openq := q' } :=
          { gstart := hcore.gstart, gpos := hcore.gpos, grange := hcore.grange,
            gsound := hcore.gsound,
            aqp := fun e he =>
              hcore.aqp e (by rw [herase] at he; exact List.mem_of_mem_erase he),
            cfok := hcore.cfok, cfdom := hcore.cfdom }
        have hnode1 : ∀ v, v ≠ current →
            NodeOk goal cols rows blocked { st with openq := q' } v := by
          intro v hvc d hd
          rcases hnode v d hd with ⟨f0, hf0, hle⟩ | hs
          · refine Or.inl ⟨f0, ?_, hle⟩
            show (f0, v) ∈ q'
            rw [herase]
            have hne : ((f0, v) : AEntry) ≠ (f, current) := by
              intro h
              rw [Prod.ext_iff] at h
              exact hvc h.2
            exact (List.mem_erase_of_ne hne).2 hf0
          · exact Or.inr hs
        obtain ⟨Fcore, Fcur, Fnode, Frel, Fmeas, Fq, Fdec⟩ :=
          relax_fold_spec start goal cols rows blocked current dcur
            (neighbors_4 current.1 current.2) { st with openq := q' }
            (fun u hu => hu) (self_not_nbr current) hdcur hcore1
        have hinv2 : AInv start goal cols rows blocked
            ((neighbors_4 current.1 current.2).foldl
              (relax goal cols rows blocked current) { st with openq := q' }) := by
          refine ⟨Fcore, ?_⟩
          intro v
          by_cases hvc : v = current
          · subst hvc
            intro d hd
            rw [Fcur] at hd
            have hdd := Option.some.inj hd
            refine Or.inr ?_
            intro u hu huval
            rcases Frel u hu huval with ⟨dw, hdw, hdwle⟩ | hbig
            · exact Or.inl ⟨dw, hdw, by omega⟩
            · exact Or.inr (by omega)
          · exact Fnode v hvc (hnode1 v hvc)
        have hlen1 : st.openq.length = q'.length + 1 := by
          have h1 := List.length_erase_of_mem hmem
          have h2 : 0 < st.openq.length :=
            List.length_pos.2 (List.ne_nil_of_mem hmem)
          rw [herase]
          omega
        have Fmeas' : 2 * (gridFinset cols rows).sum
              (apot ((neighbors_4 current.1 current.2).foldl
                (relax goal cols rows blocked current) { st with openq := q' }).g)
            + ((neighbors_4 current.1 current.2).foldl
                (relax goal cols rows blocked current) { st with openq := q' }).openq.length
            ≤ 2 * (gridFinset cols rows).sum (apot st.g) + q'.length := Fmeas
        have hm2 : ameasure cols rows
            ((neighbors_4 current.1 current.2).foldl
              (relax goal cols rows blocked current) { st with openq := q' }) < fuel := by
          unfold ameasure at hmeas ⊢
          omega
        exact ih _ hinv2 hm2

/-- Reconstruction correctness: under the `came_from` invariant, walking
back from a node with `g`-value `dv` yields a valid path from `start` of
length at most `dv` (the chain strictly descends in `g`). -/
theorem reconstruct_spec (start : Coord) (cols rows : ℤ) (blocked : Finset Coord)
    (g : List (Coord × ℕ)) (came_from : List (Coord × Coord))
    (hcfok : ∀ v p, alookup came_from v = some p →
      v ∈ neighbors_4 p.1 p.2 ∧ valid_cell cols rows blocked v ∧
      ∃ dv dp, alookup g v = some dv ∧ alookup g p = some dp ∧ dp + 1 ≤ dv)
    (hcfdom : ∀ v d, alookup g v = some d → v ≠ start →
      ∃ p, alookup came_from v = some p) :
    ∀ (fuel : ℕ) (v : Coord) (dv : ℕ) (acc : List Coord),
      alookup g v = some dv → v ≠ start → dv < fuel →
      ∃ pv, reconstruct came_from start fuel v acc = pv ++ acc ∧
        is_path cols rows blocked start v pv ∧ pv.length ≤ dv := by
  intro fuel
  induction fuel with
  | zero => exact fun v dv acc _ _ h => absurd h (Nat.not_lt_zero _)
  | succ fuel ih =>
    intro v dv acc hdv hvs hfuel
    obtain ⟨p, hp⟩ := hcfdom v dv hdv hvs
    obtain ⟨hadj, hval, dv', dp, hdv', hdp, hle⟩ := hcfok v p hp
    have hdveq : dv = dv' := by
      rw [hdv] at hdv'
      exact Option.some.inj hdv'
    have hnext : (alookup came_from v).getD start = p := by simp [hp]
    by_cases hps : p = start
    · have hstep : reconstruct came_from start (fuel + 1) v acc = v :: acc := by
        unfold reconstruct
        rw [hnext, if_pos hps]
      rw [hstep]
      refine ⟨[v], rfl, ?_, by simp only [List.length_singleton]; omega⟩
      rw [hps] at hadj
      exact ⟨hadj, hval, rfl⟩
    · have hstep : reconstruct came_from start (fuel + 1) v acc
          = reconstruct came_from start fuel p (v :: acc) := by
        unfold reconstruct
        rw [hnext, if_neg hps]
        cases fuel <;> rfl
      rw [hstep]
      obtain ⟨pv', heq, hpath, hlen⟩ := ih p dp (v :: acc) hdp hps (by omega)
      refine ⟨pv' ++ [v], ?_, ?_, ?_⟩
      · rw [heq]
        simp
      · exact is_path_snoc cols rows blocked pv' start p v hpath hadj hval
      · simp only [List.length_append, List.length_singleton]
        omega

/-- The loop post-condition, established for `a_star`'s actual initial
state and fuel. -/
theorem a_star_post (start goal : Coord) (cols rows : ℤ)
    (blocked : Finset Coord) (hsg : start ≠ goal) :
    APost start goal cols rows blocked
      (a_star_loop goal cols rows blocked
        (2 * 1000000000 * (cols.toNat * rows.toNat) + cols.toNat * rows.toNat + 3)
        ⟨[(0, start)], [(start, 0)], []⟩) := by
  have hlook : ∀ v : Coord, alookup [(start, (0 : ℕ))] v
      = if v = start then some 0 else none := fun v => rfl
  have hinv0 : AInv start goal cols rows blocked ⟨[(0, start)], [(start, 0)], []⟩ := by
    constructor
    · refine
        { gstart := ?_, gpos := ?_, grange := ?_, gsound := ?_,
          aqp := ?_, cfok := ?_, cfdom := ?_ }
      · rw [hlook, if_pos rfl]
      · intro v d hd hvs
        rw [hlook, if_neg hvs] at hd
        exact absurd hd (by simp)
      · intro v d hd
        rw [hlook] at hd
        by_cases hvs : v = start
        · rw [if_pos hvs] at hd
          have := Option.some.inj hd
          omega
        · rw [if_neg hvs] at hd
          exact absurd hd (by simp)
      · intro v d hd
        rw [hlook] at hd
        by_cases hvs : v = start
        · rw [if_pos hvs] at hd
          have hd0 := Option.some.inj hd
          refine ⟨[], ?_, by simp [hd0.symm]⟩
          rw [hvs]
          rfl
        · rw [if_neg hvs] at hd
          exact absurd hd (by simp)
      · intro e he
        rcases List.mem_cons.1 he with rfl | he
        · exact ⟨0, by rw [hlook, if_pos rfl], Or.inr ⟨rfl, rfl⟩⟩
        · exact absurd he (List.not_mem_nil e)
      · intro v p hcp
        exact absurd hcp (by simp [alookup])
      · intro v d hd hvs
        rw [hlook, if_neg hvs] at hd
        exact absurd hd (by simp)
    · intro v d hd
      rw [hlook] at hd
      by_cases hvs : v = start
      · refine Or.inl ⟨0, ?_, by omega⟩
        rw [hvs]
        exact List.mem_cons_self _ _
      · rw [if_neg hvs] at hd
        exact absurd hd (by simp)
  have hmeas0 : ameasure cols rows ⟨[(0, start)], [(start, 0)], []⟩
      < 2 * 1000000000 * (cols.toNat * rows.toNat) + cols.toNat * rows.toNat + 3 := by
    have hcard : (gridFinset cols rows).card = cols.toNat * rows.toNat := by
      unfold gridFinset
      rw [Finset.card_product, Int.card_Icc, Int.card_Icc]
      rw [show (cols - 1 + 1 - 0 : ℤ) = cols from by ring,
        show (rows - 1 + 1 - 0 : ℤ) = rows from by ring]
    have hb : ∀ v ∈ gridFinset cols rows, apot [(start, 0)] v ≤ 1000000000 := by
      intro v _
      unfold apot
      rw [hlook]
      by_cases hvs : v = start
      · rw [if_pos hvs]
        simp
      · rw [if_neg hvs]
        simp
    have hsum := Finset.sum_le_card_nsmul (gridFinset cols rows) (apot [(start, 0)])
      1000000000 hb
    rw [hcard, smul_eq_mul] at hsum
    have hconv : (∑ x ∈ gridFinset cols rows, apot [(start, 0)] x)
        = (gridFinset cols rows).sum (apot [(start, 0)]) := rfl
    have hmm : ameasure cols rows ⟨[(0, start)], [(start, 0)], []⟩
        = 2 * (gridFinset cols rows).sum (apot [(start, 0)]) + 1 := rfl
    rw [hmm]
    generalize hN : cols.toNat * rows.toNat = N at hsum ⊢
    omega
  exact a_star_loop_post start goal cols rows blocked (Ne.symm hsg) _ _ hinv0 hmeas0

/-! ### From the loop post-condition to `a_star`'s return value -/

/-- The state `a_star`'s while loop leaves behind. -/
def a_star_final (start goal : Coord) (cols rows : ℤ) (blocked : Finset Coord) :
    AStarState :=
  a_star_loop goal cols rows blocked
    (2 * 1000000000 * (cols.toNat * rows.toNat) + cols.toNat * rows.toNat + 3)
    { openq := [(0, start)], g := [(start, 0)], came_from := [] }

theorem a_star_eq_final (start goal : Coord) (cols rows : ℤ)
    (blocked : Finset Coord) (hsg : ¬ start = goal) :
    a_star start goal cols rows blocked
      = if (alookup (a_star_final start goal cols rows blocked).came_from goal).isNone
          ∧ goal ≠ start then []
        else reconstruct (a_star_final start goal cols rows blocked).came_from start
          ((alookup (a_star_final start goal cols rows blocked).g goal).getD 0 + 1)
          goal [] := by
  unfold a_star
  rw [if_neg hsg]
  rfl

/-- What `a_star` returns for distinct endpoints: either the empty list —
and then no path of length below the `1_000_000_000` sentinel exists — or
a valid path shorter than the sentinel that is optimal among all paths
shorter than the sentinel. -/
theorem a_star_main (start goal : Coord) (cols rows : ℤ) (blocked : Finset Coord)
    (hsg : start ≠ goal) :
    (a_star start goal cols rows blocked = [] ∨
      (is_path cols rows blocked start goal (a_star start goal cols rows blocked) ∧
       (a_star start goal cols rows blocked).length < 1000000000)) ∧
    ∀ l, is_path cols rows blocked start goal l → l.length < 1000000000 →
      is_path cols rows blocked start goal (a_star start goal cols rows blocked) ∧
      (a_star start goal cols rows blocked).length ≤ l.length := by
  have hpost : APost start goal cols rows blocked
      (a_star_final start goal cols rows blocked) :=
    a_star_post start goal cols rows blocked hsg
  have heq := a_star_eq_final start goal cols rows blocked hsg
  rcases hcf : alookup (a_star_final start goal cols rows blocked).came_from goal
    with - | p
  · have h0 : a_star start goal cols rows blocked = [] := by
      rw [heq, hcf]
      rw [if_pos ⟨rfl, Ne.symm hsg⟩]
    refine ⟨Or.inl h0, ?_⟩
    intro l hl hlen
    obtain ⟨dG, hdG, -⟩ := hpost.goalbound l hl hlen
    obtain ⟨p, hp⟩ := hpost.cfdom goal dG hdG (Ne.symm hsg)
    rw [hcf] at hp
    exact absurd hp (by simp)
  · obtain ⟨-, -, dG, dp, hdG, -, -⟩ := hpost.cfok goal p hcf
    have hres : a_star start goal cols rows blocked
        = reconstruct (a_star_final start goal cols rows blocked).came_from start
            (dG + 1) goal [] := by
      rw [heq, hcf]
      rw [if_neg (by simp), hdG]
      rfl
    obtain ⟨pv, hpv, hpath, hplen⟩ := reconstruct_spec start cols rows blocked
      (a_star_final start goal cols rows blocked).g
      (a_star_final start goal cols rows blocked).came_from
      hpost.cfok hpost.cfdom (dG + 1) goal dG [] hdG (Ne.symm hsg) (by omega)
    rw [List.append_nil] at hpv
    have hG : dG < 1000000000 := hpost.grange goal dG hdG
    constructor
    · right
      rw [hres, hpv]
      exact ⟨hpath, by omega⟩
    · intro l hl hlen
      obtain ⟨dG2, hdG2, hle2⟩ := hpost.goalbound l hl hlen
      have hGeq : dG = dG2 := by
        rw [hdG] at hdG2
        exact Option.some.inj hdG2
      rw [hres, hpv]
      exact ⟨hpath, by omega⟩

/-- The straight row-0 path `[(1,0), …, (n,0)]`, the witness that a path
to a far-away goal exists. -/
theorem straight_is_path (cols : ℤ) :
    ∀ n : ℕ, (n : ℤ) < cols →
      is_path cols 1 ∅ (0, 0) ((n : ℤ), 0)
        ((List.range n).map fun k : ℕ => ((k : ℤ) + 1, 0)) := by
  intro n
  induction n with
  | zero => exact fun h => rfl
  | succ n ih =>
    intro h
    have hn : (n : ℤ) < cols := by push_cast at h; omega
    rw [List.range_succ, List.map_append, List.map_cons, List.map_nil]
    push_cast
    refine is_path_snoc cols 1 ∅ _ (0, 0) ((n : ℤ), 0) ((n : ℤ) + 1, 0)
      (ih hn) (List.mem_cons_self _ _) ?_
    refine ⟨⟨by omega, by push_cast at h; omega, by omega, by omega⟩, by simp⟩


/-- Existence form of the straight path, stated for an integer goal
column. -/
theorem straight_path_exists (cols g1 : ℤ) (n : ℕ) (hg : g1 = (n : ℤ))
    (h : (n : ℤ) < cols) :
    ∃ l, is_path cols 1 ∅ (0, 0) (g1, 0) l := by
  rw [hg]
  exact ⟨_, straight_is_path cols n h⟩


/-- When the goal is at Manhattan distance at least the sentinel, no path
that short exists, so the search cannot return one. -/
theorem a_star_no_long_path (start goal : Coord) (cols rows : ℤ)
    (blocked : Finset Coord) (hsg : start ≠ goal)
    (hfar : 1000000000 ≤ manhattan start goal) :
    ¬ is_path cols rows blocked start goal
      (a_star start goal cols rows blocked) := by
  intro hpath
  rcases (a_star_main start goal cols rows blocked hsg).1 with h0 | ⟨-, hlen⟩
  · rw [h0] at hpath
    exact hsg hpath
  · have h1 := is_path_len_ge cols rows blocked _ _ _ hpath
    omega

/-- C1: the claim fails as stated.  With start `(0,0)` and goal
`(10^9, 0)` on a `(10^9 + 1) × 1` strip with nothing blocked, a
4-directional path exists (the straight one), yet `a_star` does not
return a path from start to goal at all: the true distance `10^9`
collides with the `g.get(..., 1_000_000_000)` infinity default, so the
goal is never relaxed and the search returns `[]`. -/
theorem C1_sentinel_overflow :
    ∃ (start goal : Coord) (cols rows : ℤ) (blocked : Finset Coord),
      (∃ l, is_path cols rows blocked start goal l) ∧
      ¬ is_path cols rows blocked start goal
        (a_star start goal cols rows blocked) :=
  ⟨(0, 0), (1000000000, 0), 1000000001, 1, ∅,
    straight_path_exists 1000000001 1000000000 1000000000 (by norm_num)
      (by norm_num),
    a_star_no_long_path (0, 0) (1000000000, 0) 1000000001 1 ∅ (by decide)
      Nat.le.refl⟩

/-- C1 (amended): for every start, goal, bounds and blocked-set such that
a 4-directional path from start to goal avoiding the blocked-set exists
whose length is below the code's `1_000_000_000` infinity sentinel,
`a_star` returns a valid path from start to goal of minimal length among
such paths. -/
theorem C1_a_star_optimal_below_sentinel (start goal : Coord) (cols rows : ℤ)
    (blocked : Finset Coord) (l : List Coord)
    (hl : is_path cols rows blocked start goal l)
    (hshort : l.length < 1000000000) :
    is_path cols rows blocked start goal (a_star start goal cols rows blocked) ∧
    (a_star start goal cols rows blocked).length ≤ l.length := by
  by_cases hsg : start = goal
  · have h0 : a_star start goal cols rows blocked = [] := by
      unfold a_star
      rw [if_pos hsg]
    rw [h0]
    exact ⟨hsg, Nat.zero_le _⟩
  · exact (a_star_main start goal cols rows blocked hsg).2 l hl hshort

theorem C1_a_star_optimal_below_sentinel_witness :
    (is_path 3 1 ∅ (0, 0) (2, 0) [(1, 0), (2, 0)] ∧
      ([(1, 0), (2, 0)] : List Coord).length < 1000000000) ∧
    is_path 3 1 ∅ (0, 0) (2, 0) (a_star (0, 0) (2, 0) 3 1 ∅) ∧
    (a_star (0, 0) (2, 0) 3 1 ∅).length ≤ ([(1, 0), (2, 0)] : List Coord).length :=
  ⟨⟨by decide, by decide⟩,
    C1_a_star_optimal_below_sentinel (0, 0) (2, 0) 3 1 ∅ [(1, 0), (2, 0)]
      (by decide) (by decide)⟩

/-- C9: the `a_star` half of the scenario holds, but the `bfs_reachable`
half fails: from the corner `(0,0)` with 2 steps the scan reaches five
tiles, not twelve — e.g. `(0,-1)` is at Manhattan distance 1 yet out of
bounds, so it is not in the returned set. -/
theorem C9_corner_has_five_not_twelve :
    a_star (0, 0) (3, 0) 10 10 ∅ = [(1, 0), (2, 0), (3, 0)] ∧
    manhattan (0, 0) (0, -1) = 1 ∧
    ((0, -1) : Coord) ∉ bfs_reachable (0, 0) 2 ⟨10, 10, ∅, ∅⟩ ∅ ∧
    (bfs_reachable (0, 0) 2 ⟨10, 10, ∅, ∅⟩ ∅).card = 5 :=
  ⟨by decide, by decide, by decide, by decide⟩

/-- C9 (amended): on a 10×10 grid with empty blocked-set,
`a_star((0,0),(3,0))` returns exactly `[(1,0),(2,0),(3,0)]`, and
`bfs_reachable((0,0), 2)` on an obstacle-free map contains exactly the
five in-bounds coordinates at Manhattan distance 1 or 2 from the corner
`(0,0)`. -/
theorem C9_scenario_exact :
    a_star (0, 0) (3, 0) 10 10 ∅ = [(1, 0), (2, 0), (3, 0)] ∧
    bfs_reachable (0, 0) 2 ⟨10, 10, ∅, ∅⟩ ∅
      = {(1, 0), (0, 1), (2, 0), (1, 1), (0, 2)} :=
  ⟨by decide, by decide⟩
